import Mathlib

/-!
# Verification of the url-reader crawl subsystem

A shallow embedding, in Lean 4, of the core functions of the url-reader
MCP server: the SSRF network gate (`src/utils/network.ts`), the token
estimator (`src/crawler/token-counter.ts`), the URL normalizer
(`src/utils/url.ts`), the link filter (`src/crawler/link-resolver.ts`) and
the BFS crawl engine (`src/crawler/bfs-crawler.ts`), together with
theorems settling the specification's claims about them.

Modelling conventions:
* JavaScript numbers that only ever flow through 32-bit bitwise operators
  are modelled as `Nat` with explicit `% 2 ^ 32` truncation.
* `parseInt` returning `NaN` is modelled as `Option Nat` returning `none`;
  at the points where the source feeds a possible `NaN` into a bitwise
  operator (where JS coerces `NaN` to `0`) the model uses `.getD 0`, and
  at the points where the source compares a possible `NaN` (always false)
  the model matches on the option.
* Code that can throw is modelled in `Option`/`Except` (`none`/`.error`
  for a thrown exception).
* `String.length` in JS counts UTF-16 code units; the model uses an
  explicit `utf16Len` weight per character where it matters.
* Asynchronous collaborators of the crawl engine (DNS resolution, the
  fetch-and-extract pipeline, the cheerio HTML parse) are passed in as
  explicit inputs, and the crawl loop takes a fuel argument; running out
  of fuel yields `none`.
-/

/- Batteries marks the rational-number arithmetic `@[irreducible]`; the
float arithmetic of the token estimator is modelled exactly in `ℚ`, and
concrete evaluations by `decide` need it to reduce. -/
attribute [local semireducible] Rat.mul Rat.inv Rat.add Rat.sub Rat.ofScientific

/-! ## JavaScript primitive helpers

The embedding re-implements the handful of JS string primitives the source
uses (`split`, `startsWith`, `includes`, `toLowerCase`, `padStart`,
`substring`) by structural recursion over character lists, so that every
definition reduces inside the kernel (`String.splitOn` and friends from
core are defined by well-founded recursion and do not). -/

/-- Split a character list at every occurrence of a separator character
(JS `s.split(sep)` for a one-character separator). -/
def splitOnCharFn (sep : Char) : List Char → List (List Char)
  | [] => [[]]
  | c :: rest =>
    if c = sep then [] :: splitOnCharFn sep rest
    else
      match splitOnCharFn sep rest with
      | [] => [[c]]
      | seg :: segs => (c :: seg) :: segs

/-- JS `s.split(sep)` for a one-character separator, on strings. -/
def jsSplitChar (s : String) (sep : Char) : List String :=
  (splitOnCharFn sep s.toList).map String.mk

/-- Split a character list at every non-overlapping occurrence of the
two-character sequence `::` (JS `s.split("::")`), scanning left to right. -/
def splitOnColonColon : List Char → List (List Char)
  | [] => [[]]
  | ':' :: ':' :: rest => [] :: splitOnColonColon rest
  | c :: rest =>
    match splitOnColonColon rest with
    | [] => [[c]]
    | seg :: segs => (c :: seg) :: segs

/-- JS `s.split("::")`, on strings. -/
def jsSplitColonColon (s : String) : List String :=
  (splitOnColonColon s.toList).map String.mk

/-- JS `s.startsWith(pre)`. -/
def jsStartsWith (s pre : String) : Bool := pre.toList.isPrefixOf s.toList

/-- JS `s.includes(c)` for a single character (used by the `isPrivateIP`
colon dispatch). -/
def jsContainsChar (s : String) (c : Char) : Bool := s.toList.contains c

/-- ASCII lowercase of one character (JS `toLowerCase` restricted to
ASCII; the strings this model lowercases are hex groups, schemes and
hostnames, all drawn from ASCII). -/
def lowerChar (c : Char) : Char :=
  if 65 ≤ c.toNat ∧ c.toNat ≤ 90 then Char.ofNat (c.toNat + 32) else c

/-- ASCII lowercase of a string. -/
def lowerStr (s : String) : String := String.mk (s.toList.map lowerChar)

/-- Numeric value of a decimal digit character. -/
def digitVal (c : Char) : Nat := c.toNat - 48

/-- Value of a list of decimal digit characters read left to right. -/
def decListToNat (cs : List Char) : Nat := cs.foldl (fun n c => 10 * n + digitVal c) 0

/-- Model of JS `parseInt(s, 10)`: the longest prefix of decimal digits;
`none` models `NaN` when there is no digit prefix. -/
def parseDecJS (s : String) : Option Nat :=
  let ds := s.toList.takeWhile Char.isDigit
  if ds.isEmpty then none else some (decListToNat ds)

/-- Is the character an ASCII hexadecimal digit? -/
def isHexDigitChar (c : Char) : Bool :=
  c.isDigit || ('a' ≤ c && c ≤ 'f') || ('A' ≤ c && c ≤ 'F')

/-- Numeric value of a hexadecimal digit character. -/
def hexVal (c : Char) : Nat :=
  if c.isDigit then c.toNat - 48
  else if 'a' ≤ c ∧ c ≤ 'f' then c.toNat - 87
  else c.toNat - 55

/-- Value of a list of hexadecimal digit characters read left to right. -/
def hexListToNat (cs : List Char) : Nat := cs.foldl (fun n c => 16 * n + hexVal c) 0

/-- Model of JS `parseInt(s, 16)`: the longest prefix of hex digits;
`none` models `NaN`. -/
def parseHexJS (s : String) : Option Nat :=
  let ds := s.toList.takeWhile isHexDigitChar
  if ds.isEmpty then none else some (hexListToNat ds)

/-! ## Network security gate (`src/utils/network.ts`) -/

/-- `ipv4ToInt`: dotted-quad IPv4 string to 32-bit unsigned integer, as in
the source: `(parts[0] << 24 | parts[1] << 16 | parts[2] << 8 | parts[3]) >>> 0`.
Missing parts parse to `NaN`, which the JS bitwise operators coerce to 0. -/
def ipv4ToInt (ip : String) : Nat :=
  let parts := jsSplitChar ip '.' 
  let p := fun (i : Nat) => ((parseDecJS (parts.getD i "")).getD 0) % 2 ^ 32
  ((p 0 <<< 24) ||| (p 1 <<< 16) ||| (p 2 <<< 8) ||| p 3) % 2 ^ 32

/-- A contiguous range of IPv4 addresses, inclusive on both ends.
The source field named `end` is rendered `stop` (`end` is a Lean keyword). -/
structure IPv4Range where
  label : String
  start : Nat
  stop : Nat

/-- The blocked IPv4 ranges, exactly as listed in the source. -/
def IPV4_PRIVATE_RANGES : List IPv4Range :=
  [ ⟨"Loopback (127.0.0.0/8)", ipv4ToInt "127.0.0.0", ipv4ToInt "127.255.255.255"⟩,
    ⟨"Private Class A (10.0.0.0/8)", ipv4ToInt "10.0.0.0", ipv4ToInt "10.255.255.255"⟩,
    ⟨"Private Class B (172.16.0.0/12)", ipv4ToInt "172.16.0.0", ipv4ToInt "172.31.255.255"⟩,
    ⟨"Private Class C (192.168.0.0/16)", ipv4ToInt "192.168.0.0", ipv4ToInt "192.168.255.255"⟩,
    ⟨"Link-Local (169.254.0.0/16)", ipv4ToInt "169.254.0.0", ipv4ToInt "169.254.255.255"⟩,
    ⟨"This Network (0.0.0.0/8)", ipv4ToInt "0.0.0.0", ipv4ToInt "0.255.255.255"⟩,
    ⟨"CGNAT (100.64.0.0/10)", ipv4ToInt "100.64.0.0", ipv4ToInt "100.127.255.255"⟩,
    ⟨"IETF Protocol Assignments (192.0.0.0/24)", ipv4ToInt "192.0.0.0", ipv4ToInt "192.0.0.255"⟩,
    ⟨"Benchmarking (198.18.0.0/15)", ipv4ToInt "198.18.0.0", ipv4ToInt "198.19.255.255"⟩ ]

/-- `isIPv4Private`: linear scan of the private ranges. -/
def isIPv4Private (ip : String) : Bool :=
  let ipInt := ipv4ToInt ip
  IPV4_PRIVATE_RANGES.any fun range => range.start ≤ ipInt && ipInt ≤ range.stop

/-- `padStart(4, "0")` on a group string. -/
def padStart4 (s : String) : String :=
  if s.length ≥ 4 then s else String.mk (List.replicate (4 - s.length) '0') ++ s

/-- `expandIPv6`: expand an abbreviated IPv6 address to its 8-group form,
following the source exactly (zone stripping, `::` expansion, per-group
`padStart(4,"0").toLowerCase()`).  The source would throw on more than 8
groups around a `::` (`new Array` with negative length); `Nat` subtraction
clamps instead, which only differs on inputs that are not IPv6 addresses. -/
def expandIPv6 (ip : String) : String :=
  let withoutZone := (jsSplitChar ip '%').headD ""
  let halves := jsSplitColonColon withoutZone
  let groups :=
    if halves.length = 2 then
      let left := if (halves.getD 0 "") ≠ "" then jsSplitChar (halves.getD 0 "") ':' else []
      let right := if (halves.getD 1 "") ≠ "" then jsSplitChar (halves.getD 1 "") ':' else []
      let missingGroups := 8 - (left.length + right.length)
      let middle := List.replicate missingGroups "0000"
      left ++ middle ++ right
    else jsSplitChar withoutZone ':'
  String.intercalate ":" (groups.map fun g => lowerStr (padStart4 g))

/-- `isIPv6Private`: string prefix matching on the expanded address, with
the IPv4-mapped branch converting the two trailing hex groups back to a
dotted quad, exactly as in the source. -/
def isIPv6Private (expanded : String) : Bool :=
  if expanded = "0000:0000:0000:0000:0000:0000:0000:0001" then true
  else if expanded = "0000:0000:0000:0000:0000:0000:0000:0000" then true
  else
    let firstTwoChars := String.mk (expanded.toList.take 2)
    if firstTwoChars = "fc" || firstTwoChars = "fd" then true
    else
      let firstGroup := parseHexJS (String.mk (expanded.toList.take 4))
      if (match firstGroup with
          | some v => decide (0xfe80 ≤ v ∧ v ≤ 0xfebf)
          | none => false) then true
      else if jsStartsWith expanded "0000:0000:0000:0000:0000:ffff:" then
        let ipv4HexPart := String.mk (expanded.toList.drop 30)
        let hexGroups := jsSplitChar ipv4HexPart ':' 
        if hexGroups.length = 2 then
          let highWord := ((parseHexJS (hexGroups.getD 0 "")).getD 0) % 2 ^ 32
          let lowWord := ((parseHexJS (hexGroups.getD 1 "")).getD 0) % 2 ^ 32
          let ipv4 := toString ((highWord >>> 8) &&& 0xff) ++ "." ++
            toString (highWord &&& 0xff) ++ "." ++
            toString ((lowWord >>> 8) &&& 0xff) ++ "." ++
            toString (lowWord &&& 0xff)
          isIPv4Private ipv4
        else false
      else false

/-- `isPrivateIP`: dispatch on the presence of a colon. -/
def isPrivateIP (ip : String) : Bool :=
  if jsContainsChar ip ':' then isIPv6Private (expandIPv6 ip) else isIPv4Private ip

/-- The kinds of `SecurityError` thrown by `validateHostname`. -/
inductive SecurityErr where
  | dnsResolutionFailed
  | privateIPDetected (ip : String)
deriving DecidableEq

/-- The list of all resolved addresses: A records then AAAA records, a
failed resolution contributing nothing (the source catches each
resolution's error separately). -/
def resolvedIPs (r4 r6 : Except Unit (List String)) : List String :=
  (match r4 with | .ok l => l | .error _ => []) ++
    (match r6 with | .ok l => l | .error _ => [])

/-- `validateHostname`, with the two DNS resolutions passed in as inputs
(`.error` models a rejected `dns.resolve4`/`dns.resolve6` promise).  The
source throws on zero collected addresses, and otherwise throws on the
first private address found, in order. -/
def validateHostname (r4 r6 : Except Unit (List String)) : Except SecurityErr Unit :=
  let allIPs := resolvedIPs r4 r6
  if allIPs.isEmpty then .error .dnsResolutionFailed
  else
    match allIPs.find? (fun ip => isPrivateIP ip) with
    | some ip => .error (.privateIPDetected ip)
    | none => .ok ()


/-! ## Claim-side IPv4 range description (from the spec's CIDR list) -/

/-- The nine blocked IPv4 ranges of the spec, as inclusive 32-bit integer
bounds: loopback 127.0.0.0/8, private 10.0.0.0/8, 172.16.0.0/12,
192.168.0.0/16, link-local 169.254.0.0/16, this-network 0.0.0.0/8,
CGNAT 100.64.0.0/10, IETF protocol assignments 192.0.0.0/24,
benchmarking 198.18.0.0/15. -/
def InClaimedIPv4Ranges (n : Nat) : Prop :=
  (2130706432 ≤ n ∧ n ≤ 2147483647) ∨   -- 127.0.0.0 .. 127.255.255.255
  (167772160 ≤ n ∧ n ≤ 184549375) ∨     -- 10.0.0.0 .. 10.255.255.255
  (2886729728 ≤ n ∧ n ≤ 2887778303) ∨   -- 172.16.0.0 .. 172.31.255.255
  (3232235520 ≤ n ∧ n ≤ 3232301055) ∨   -- 192.168.0.0 .. 192.168.255.255
  (2851995648 ≤ n ∧ n ≤ 2852061183) ∨   -- 169.254.0.0 .. 169.254.255.255
  (0 ≤ n ∧ n ≤ 16777215) ∨              -- 0.0.0.0 .. 0.255.255.255
  (1681915904 ≤ n ∧ n ≤ 1686110207) ∨   -- 100.64.0.0 .. 100.127.255.255
  (3221225472 ≤ n ∧ n ≤ 3221225727) ∨   -- 192.0.0.0 .. 192.0.0.255
  (3323068416 ≤ n ∧ n ≤ 3323199487)     -- 198.18.0.0 .. 198.19.255.255

instance (n : Nat) : Decidable (InClaimedIPv4Ranges n) := by
  unfold InClaimedIPv4Ranges; infer_instance

/-! ### C1: IPv4-mapped IPv6 addresses (`::ffff:a.b.c.d`) -/

/-- C1 (code bug evidence): the spec requires `isPrivateIP` to unwrap an
IPv4-mapped address written `::ffff:a.b.c.d` and re-check the embedded
IPv4 address, so that `isPrivateIP "::ffff:127.0.0.1" = true`.  The code
does not: `expandIPv6` keeps the dotted quad as a single textual group,
producing six zero groups before `ffff`, so the mapped-address prefix
check (which expects five) never fires and `isPrivateIP
"::ffff:127.0.0.1"` evaluates to `false`.  The hex-group spelling
`::ffff:7f00:1` of the very same address is detected, which shows the
unwrapping branch was intended to catch the mapped form. -/
theorem isPrivateIP_mapped_dotted_quad_bug :
    isPrivateIP "::ffff:127.0.0.1" = false ∧
    expandIPv6 "::ffff:127.0.0.1" =
      "0000:0000:0000:0000:0000:0000:ffff:127.0.0.1" ∧
    isPrivateIP "::ffff:7f00:1" = true ∧
    isPrivateIP "::ffff:8.8.8.8" = false := by
  refine ⟨by decide, by decide, by decide, by decide⟩

/-! ### C2: `validateHostname` blocking condition -/

/-- C2: `validateHostname` fails with a `SecurityError` if and only if the
two resolutions together yield zero addresses or some resolved address is
private; moreover a failed resolution of one record type is not fatal when
the other succeeds with only public addresses. -/
theorem validateHostname_error_iff :
    (∀ r4 r6 : Except Unit (List String),
      (∃ e, validateHostname r4 r6 = .error e) ↔
        (resolvedIPs r4 r6 = [] ∨
          ∃ ip ∈ resolvedIPs r4 r6, isPrivateIP ip = true)) ∧
    (∀ ips : List String, ips ≠ [] → (∀ ip ∈ ips, isPrivateIP ip = false) →
      validateHostname (.error ()) (.ok ips) = .ok () ∧
      validateHostname (.ok ips) (.error ()) = .ok ()) := by
  have key : ∀ l : List String,
      (∃ e, (if l.isEmpty then (.error .dnsResolutionFailed : Except SecurityErr Unit)
        else match l.find? (fun ip => isPrivateIP ip) with
          | some ip => .error (.privateIPDetected ip)
          | none => .ok ()) = .error e) ↔
      (l = [] ∨ ∃ ip ∈ l, isPrivateIP ip = true) := by
    intro l
    by_cases he : l.isEmpty
    · simp only [he, if_true]
      exact ⟨fun _ => Or.inl (List.isEmpty_iff.mp he), fun _ => ⟨_, rfl⟩⟩
    · simp only [he, if_false]
      have hne : l ≠ [] := fun hnil => he (List.isEmpty_iff.mpr hnil)
      rcases h : l.find? (fun ip => isPrivateIP ip) with _ | ip
      · rw [List.find?_eq_none] at h
        constructor
        · rintro ⟨e, hcontra⟩; cases hcontra
        · rintro (rfl | ⟨ip, hm, hp⟩)
          · exact absurd rfl hne
          · exact absurd hp (by simpa using h ip hm)
      · constructor
        · intro _
          exact Or.inr ⟨ip, List.mem_of_find?_eq_some h,
            by simpa using List.find?_some h⟩
        · intro _; exact ⟨.privateIPDetected ip, rfl⟩
  constructor
  · intro r4 r6
    have := key (resolvedIPs r4 r6)
    simpa [validateHostname] using this
  · intro ips hne hpub
    have h1 : resolvedIPs (.error ()) (.ok ips) = ips := by simp [resolvedIPs]
    have h2 : resolvedIPs (.ok ips) (.error ()) = ips := by simp [resolvedIPs]
    have hfind : ips.find? (fun ip => isPrivateIP ip) = none := by
      rw [List.find?_eq_none]
      intro ip hm; simpa using hpub ip hm
    have hie : ips.isEmpty = false := by
      cases ips with
      | nil => exact absurd rfl hne
      | cons a l => rfl
    constructor
    · simp [validateHostname, h1, hie, hfind]
    · simp [validateHostname, h2, hie, hfind]

/-! ### C3: the private-range tables of `isPrivateIP` -/

/-- C3: on IPv4 input (no colon), `isPrivateIP` is true exactly when the
32-bit value of the address lies in one of the spec's nine inclusive
ranges; on IPv6 input it is true for `::1` and `::` exactly, for
`fc00::/7` (expanded form starting `fc` or `fd`) and for `fe80::/10`
(first 16-bit group in `[0xfe80, 0xfebf]`), and false on the public
addresses `8.8.8.8` and `2607:f8b0:4004:800::200e`. -/
theorem isPrivateIP_range_characterization :
    (∀ ip : String, jsContainsChar ip ':' = false →
      (isPrivateIP ip = true ↔ InClaimedIPv4Ranges (ipv4ToInt ip))) ∧
    isPrivateIP "::1" = true ∧
    isPrivateIP "::" = true ∧
    (∀ ip : String, jsContainsChar ip ':' = true →
      (String.mk ((expandIPv6 ip).toList.take 2) = "fc" ∨
        String.mk ((expandIPv6 ip).toList.take 2) = "fd") →
      isPrivateIP ip = true) ∧
    (∀ (ip : String) (v : Nat), jsContainsChar ip ':' = true →
      parseHexJS (String.mk ((expandIPv6 ip).toList.take 4)) = some v →
      0xfe80 ≤ v → v ≤ 0xfebf →
      isPrivateIP ip = true) ∧
    isPrivateIP "8.8.8.8" = false ∧
    isPrivateIP "2607:f8b0:4004:800::200e" = false := by
  refine ⟨?_, by decide, by decide, ?_, ?_, by decide, by decide⟩
  · intro ip hcolon
    simp only [isPrivateIP, hcolon, Bool.false_eq_true, if_false]
    have e01 : ipv4ToInt "127.0.0.0" = 2130706432 := by decide
    have e02 : ipv4ToInt "127.255.255.255" = 2147483647 := by decide
    have e03 : ipv4ToInt "10.0.0.0" = 167772160 := by decide
    have e04 : ipv4ToInt "10.255.255.255" = 184549375 := by decide
    have e05 : ipv4ToInt "172.16.0.0" = 2886729728 := by decide
    have e06 : ipv4ToInt "172.31.255.255" = 2887778303 := by decide
    have e07 : ipv4ToInt "192.168.0.0" = 3232235520 := by decide
    have e08 : ipv4ToInt "192.168.255.255" = 3232301055 := by decide
    have e09 : ipv4ToInt "169.254.0.0" = 2851995648 := by decide
    have e10 : ipv4ToInt "169.254.255.255" = 2852061183 := by decide
    have e11 : ipv4ToInt "0.0.0.0" = 0 := by decide
    have e12 : ipv4ToInt "0.255.255.255" = 16777215 := by decide
    have e13 : ipv4ToInt "100.64.0.0" = 1681915904 := by decide
    have e14 : ipv4ToInt "100.127.255.255" = 1686110207 := by decide
    have e15 : ipv4ToInt "192.0.0.0" = 3221225472 := by decide
    have e16 : ipv4ToInt "192.0.0.255" = 3221225727 := by decide
    have e17 : ipv4ToInt "198.18.0.0" = 3323068416 := by decide
    have e18 : ipv4ToInt "198.19.255.255" = 3323199487 := by decide
    simp only [isIPv4Private, IPV4_PRIVATE_RANGES, List.any_cons, List.any_nil,
      e01, e02, e03, e04, e05, e06, e07, e08, e09, e10, e11, e12, e13, e14,
      e15, e16, e17, e18, Bool.or_eq_true, Bool.and_eq_true, decide_eq_true_eq,
      Bool.or_false]
    unfold InClaimedIPv4Ranges
    omega
  · intro ip hcolon hpre
    have hC : (String.mk ((expandIPv6 ip).toList.take 2) = "fc" ||
        String.mk ((expandIPv6 ip).toList.take 2) = "fd") = true := by
      rcases hpre with h | h <;> simp only [String.toList] at h <;> simp [String.toList, h]
    simp only [isPrivateIP, hcolon, if_true, isIPv6Private, hC]
    split_ifs <;> rfl
  · intro ip v hcolon hparse hlo hhi
    have hM : (match parseHexJS (String.mk ((expandIPv6 ip).toList.take 4)) with
        | some v => decide (0xfe80 ≤ v ∧ v ≤ 0xfebf)
        | none => false) = true := by
      rw [hparse]; simp [hlo, hhi]
    simp only [isPrivateIP, hcolon, if_true, isIPv6Private, hM]
    split_ifs <;> rfl

/-- Witness for C2: a hostname with no A records but one public AAAA-style
record (and vice versa) passes validation. -/
theorem validateHostname_error_iff_witness :
    validateHostname (.error ()) (.ok ["8.8.8.8"]) = .ok () ∧
    validateHostname (.ok ["8.8.8.8"]) (.error ()) = .ok () :=
  validateHostname_error_iff.2 ["8.8.8.8"] (by decide) (by
    intro ip hm
    simp only [List.mem_singleton] at hm
    subst hm
    decide)

/-- Witness for C3: the characterization instantiated at the concrete
private addresses `10.0.0.1` (IPv4) and `fd12:3456::1` (IPv6 ULA). -/
theorem isPrivateIP_range_characterization_witness :
    isPrivateIP "10.0.0.1" = true ∧ isPrivateIP "fd12:3456::1" = true := by
  refine ⟨(isPrivateIP_range_characterization.1 "10.0.0.1" (by decide)).mpr
    (by decide), ?_⟩
  exact isPrivateIP_range_characterization.2.2.2.1 "fd12:3456::1" (by decide)
    (Or.inr (by decide))

/-! ## Token estimator (`src/crawler/token-counter.ts`) -/

/-- UTF-16 length contribution of one character: JS `text.length` counts
UTF-16 code units, so characters above U+FFFF count twice. -/
def utf16Len (c : Char) : Nat := if c.toNat ≥ 0x10000 then 2 else 1

/-- JS `text.length` (in UTF-16 code units). -/
def jsLength (s : String) : Nat := (s.toList.map utf16Len).sum

/-- The source's `CJK_REGEX` character class: CJK symbols and punctuation,
Hiragana, Katakana, CJK Unified Ideographs, Hangul syllables, halfwidth
and fullwidth forms.  All ranges lie in the BMP, so a match is always one
code unit. -/
def isCjkChar (c : Char) : Bool :=
  let n := c.toNat
  (0x3000 ≤ n && n ≤ 0x303f) || (0x3040 ≤ n && n ≤ 0x309f) ||
  (0x30a0 ≤ n && n ≤ 0x30ff) || (0x4e00 ≤ n && n ≤ 0x9faf) ||
  (0xac00 ≤ n && n ≤ 0xd7af) || (0xff00 ≤ n && n ≤ 0xffef)

/-- `countCjkCharacters`: number of `CJK_REGEX` matches. -/
def countCjkCharacters (text : String) : Nat := text.toList.countP isCjkChar

/-- The JS `\s` character class (ECMAScript WhiteSpace and LineTerminator
code points). -/
def isJsWhitespace (c : Char) : Bool :=
  let n := c.toNat
  (9 ≤ n && n ≤ 13) || n == 32 || n == 0xa0 || n == 0x1680 ||
  (0x2000 ≤ n && n ≤ 0x200a) || n == 0x2028 || n == 0x2029 ||
  n == 0x202f || n == 0x205f || n == 0x3000 || n == 0xfeff

/-- UTF-16 length of `text.replace(/\s/g, "")`. -/
def nonWhitespaceLength (text : String) : Nat :=
  ((text.toList.filter (fun c => !isJsWhitespace c)).map utf16Len).sum

/-- 30% CJK threshold for classifying text as CJK-dominant. -/
def CJK_THRESHOLD : ℚ := 3 / 10

/-- Divisor for Latin/English text. -/
def CHARS_PER_TOKEN_ENGLISH : ℚ := 4

/-- Divisor for CJK-dominant text. -/
def CHARS_PER_TOKEN_CJK : ℚ := 3 / 2

/-- Divisor for mixed-script text. -/
def CHARS_PER_TOKEN_MIXED : ℚ := 3

/-- `detectCharsPerToken`, with the JS float arithmetic modelled in `ℚ`
(`0.3` and `1.5` are the only non-integral constants; the ratio comparison
agrees with the correctly rounded float comparison for every string that
can exist in memory). -/
def detectCharsPerToken (text : String) : ℚ :=
  let cjkCount := countCjkCharacters text
  if cjkCount = 0 then CHARS_PER_TOKEN_ENGLISH
  else
    let nonWsLen := nonWhitespaceLength text
    if nonWsLen = 0 then CHARS_PER_TOKEN_ENGLISH
    else
      let cjkFrac : ℚ := (cjkCount : ℚ) / (nonWsLen : ℚ)
      if CJK_THRESHOLD ≤ cjkFrac then CHARS_PER_TOKEN_CJK
      else CHARS_PER_TOKEN_MIXED

/-- `estimateTokens`: `Math.ceil(text.length / charsPerToken)`, floored at
1 for non-empty input, 0 for empty input. -/
def estimateTokens (text : String) : Nat :=
  if text.toList.isEmpty then 0
  else
    let charsPerToken := detectCharsPerToken text
    max 1 (⌈(jsLength text : ℚ) / charsPerToken⌉).toNat

/-- The spec's description of the estimate, stated independently of the
code: divisor 1.5 when the CJK ratio is at least 0.3, divisor 3 when it is
strictly positive, divisor 4 when it is 0, result `ceil(length/divisor)`
floored at 1, and 0 for the empty string.  The ratio is taken in `ℚ`,
where division by zero yields 0 (so a whitespace-only input counts as
ratio 0, which is also what the code's zero-length guard produces). -/
def claimedTokenEstimate (text : String) : Nat :=
  if jsLength text = 0 then 0
  else
    let ratio : ℚ := (countCjkCharacters text : ℚ) / (nonWhitespaceLength text : ℚ)
    let divisor : ℚ := if 3 / 10 ≤ ratio then 3 / 2 else if 0 < ratio then 3 else 4
    max 1 (⌈(jsLength text : ℚ) / divisor⌉).toNat

lemma utf16Len_pos (c : Char) : 0 < utf16Len c := by
  unfold utf16Len; split <;> omega

lemma utf16Len_le_two (c : Char) : utf16Len c ≤ 2 := by
  unfold utf16Len; split <;> omega

lemma jsLength_eq_zero_iff (t : String) : jsLength t = 0 ↔ t.toList = [] := by
  unfold jsLength
  cases hl : t.toList with
  | nil => simp
  | cons c cs =>
    simp only [List.map_cons, List.sum_cons]
    have := utf16Len_pos c
    constructor
    · intro h; omega
    · intro h; exact absurd h (by simp)

lemma detectCharsPerToken_eq_claimed (t : String) :
    detectCharsPerToken t =
      (if (3 : ℚ) / 10 ≤ (countCjkCharacters t : ℚ) / (nonWhitespaceLength t : ℚ)
        then 3 / 2
        else if 0 < (countCjkCharacters t : ℚ) / (nonWhitespaceLength t : ℚ)
          then 3 else 4) := by
  unfold detectCharsPerToken CJK_THRESHOLD CHARS_PER_TOKEN_ENGLISH
    CHARS_PER_TOKEN_CJK CHARS_PER_TOKEN_MIXED
  by_cases hc : countCjkCharacters t = 0
  · simp [hc]
    norm_num
  · simp only [hc, if_false]
    by_cases hw : nonWhitespaceLength t = 0
    · simp [hw]
      norm_num
    · simp only [hw, if_false]
      have hpos : 0 < (countCjkCharacters t : ℚ) / (nonWhitespaceLength t : ℚ) := by
        apply div_pos
        · exact_mod_cast Nat.pos_of_ne_zero hc
        · exact_mod_cast Nat.pos_of_ne_zero hw
      by_cases hr : (3 : ℚ) / 10 ≤ (countCjkCharacters t : ℚ) / (nonWhitespaceLength t : ℚ)
      · simp [hr]
      · simp [hr, hpos]

lemma ceil_cast_div (a b : ℕ) :
    ⌈(a : ℚ) / (b : ℚ)⌉ = -((-(a : ℤ)) / (b : ℤ)) := by
  have h1 : (a : ℚ) / (b : ℚ) = -(Int.cast (-(a : ℤ)) / ((b : ℕ) : ℚ)) := by
    push_cast; ring
  rw [h1, Int.ceil_neg, Rat.floor_intCast_div_natCast]

lemma estimate_ceil_four (a : ℕ) : (⌈(a : ℚ) / 4⌉).toNat = (a + 3) / 4 := by
  have h4 : ((4 : ℕ) : ℚ) = 4 := by norm_num
  rw [← h4, ceil_cast_div]
  have h4' : ((4 : ℕ) : ℤ) = 4 := by norm_num
  rw [h4']
  omega

lemma estimate_ceil_three (a : ℕ) : (⌈(a : ℚ) / 3⌉).toNat = (a + 2) / 3 := by
  have h3 : ((3 : ℕ) : ℚ) = 3 := by norm_num
  rw [← h3, ceil_cast_div]
  have h3' : ((3 : ℕ) : ℤ) = 3 := by norm_num
  rw [h3']
  omega

lemma estimate_ceil_three_halves (a : ℕ) :
    (⌈(a : ℚ) / (3 / 2)⌉).toNat = (2 * a + 2) / 3 := by
  have h : (a : ℚ) / (3 / 2) = ((2 * a : ℕ) : ℚ) / ((3 : ℕ) : ℚ) := by
    push_cast; ring
  rw [h, ceil_cast_div]
  have h3' : ((3 : ℕ) : ℤ) = 3 := by norm_num
  rw [h3']
  push_cast
  omega

/-! ### C8: the token estimate formula -/

/-- C8: `estimateTokens` is 0 exactly on the empty string and otherwise is
`max 1 ⌈length / divisor⌉` with the divisor determined by the CJK ratio as
the spec describes (`claimedTokenEstimate`); in particular the 44-character
ASCII sentence estimates to 11 and any single character to 1. -/
theorem estimateTokens_matches_claim :
    (∀ t, estimateTokens t = claimedTokenEstimate t) ∧
    (∀ t, estimateTokens t = 0 ↔ jsLength t = 0) ∧
    estimateTokens "The quick brown fox jumps over the lazy dog." = 11 ∧
    estimateTokens "" = 0 ∧
    (∀ c : Char, estimateTokens (String.mk [c]) = 1) := by
  refine ⟨?_, ?_, ?_, by decide, ?_⟩
  · intro t
    by_cases h : t.toList.isEmpty
    · have h0 : jsLength t = 0 := (jsLength_eq_zero_iff t).mpr (List.isEmpty_iff.mp h)
      simp only [estimateTokens, claimedTokenEstimate, h, h0, if_true]
    · have h0 : ¬jsLength t = 0 := fun hh =>
        h (List.isEmpty_iff.mpr ((jsLength_eq_zero_iff t).mp hh))
      simp only [estimateTokens, claimedTokenEstimate, h, h0, if_false,
        Bool.false_eq_true]
      rw [detectCharsPerToken_eq_claimed]
  · intro t
    constructor
    · intro h
      by_cases he : t.toList.isEmpty
      · exact (jsLength_eq_zero_iff t).mpr (List.isEmpty_iff.mp he)
      · exfalso
        simp only [estimateTokens, he, Bool.false_eq_true, if_false] at h
        omega
    · intro h
      have he : t.toList.isEmpty = true :=
        List.isEmpty_iff.mpr ((jsLength_eq_zero_iff t).mp h)
      simp only [estimateTokens, he, if_true]
  · have hc : countCjkCharacters "The quick brown fox jumps over the lazy dog." = 0 := by
      decide
    have hl : jsLength "The quick brown fox jumps over the lazy dog." = 44 := by
      decide
    have hne : ("The quick brown fox jumps over the lazy dog.").toList.isEmpty = false := by
      decide
    have hd : detectCharsPerToken "The quick brown fox jumps over the lazy dog." = 4 := by
      simp only [detectCharsPerToken, hc, if_true]
      norm_num [CHARS_PER_TOKEN_ENGLISH]
    simp only [estimateTokens, hne, Bool.false_eq_true, if_false, hd, hl,
      estimate_ceil_four]
    decide
  · intro c
    have hne : (String.mk [c]).toList.isEmpty = false := rfl
    have hlist : (String.mk [c]).toList = [c] := rfl
    have hlen : jsLength (String.mk [c]) = utf16Len c := by
      simp [jsLength, hlist]
    by_cases hcjk : isCjkChar c = true
    · have h16 : utf16Len c = 1 := by
        have hb : c.toNat ≤ 0xffef := by
          unfold isCjkChar at hcjk
          simp only [Bool.or_eq_true, Bool.and_eq_true, decide_eq_true_eq] at hcjk
          omega
        unfold utf16Len
        rw [if_neg]; omega
      have hcount : countCjkCharacters (String.mk [c]) = 1 := by
        simp [countCjkCharacters, hlist, List.countP_cons, hcjk]
      by_cases hws : isJsWhitespace c = true
      · have hnw : nonWhitespaceLength (String.mk [c]) = 0 := by
          simp [nonWhitespaceLength, hlist, hws]
        have hd : detectCharsPerToken (String.mk [c]) = 4 := by
          simp only [detectCharsPerToken, hcount, hnw, if_true]
          norm_num [CHARS_PER_TOKEN_ENGLISH]
        simp only [estimateTokens, hne, Bool.false_eq_true, if_false, hd, hlen,
          h16, estimate_ceil_four]
        decide
      · have hnw : nonWhitespaceLength (String.mk [c]) = 1 := by
          simp [nonWhitespaceLength, hlist, hws, h16]
        have hd : detectCharsPerToken (String.mk [c]) = 3 / 2 := by
          simp only [detectCharsPerToken, hcount, hnw]
          norm_num [CJK_THRESHOLD, CHARS_PER_TOKEN_CJK]
        simp only [estimateTokens, hne, Bool.false_eq_true, if_false, hd, hlen,
          h16, estimate_ceil_three_halves]
        decide
    · have hcount : countCjkCharacters (String.mk [c]) = 0 := by
        simp [countCjkCharacters, hlist, List.countP_cons, hcjk]
      have hd : detectCharsPerToken (String.mk [c]) = 4 := by
        simp only [detectCharsPerToken, hcount, if_true]
        norm_num [CHARS_PER_TOKEN_ENGLISH]
      have h12 : utf16Len c = 1 ∨ utf16Len c = 2 := by
        unfold utf16Len; split <;> omega
      rcases h12 with h | h <;>
        simp only [estimateTokens, hne, Bool.false_eq_true, if_false, hd, hlen,
          h, estimate_ceil_four] <;> decide

/-! ## URL normalizer model (`src/utils/url.ts`)

The source delegates URL parsing to the WHATWG `new URL()` platform API
(not repository code) and then applies its own normalization steps.  The
model therefore includes `parseURL`, a parser for a well-behaved fragment
of the absolute `http`/`https` URL grammar (ASCII host, no userinfo, no
percent-escapes, no `.`/`..` segments, no leading-zero ports, query of
nonempty `k=v` pairs); it applies the same normalizations the WHATWG
parser applies at parse time: scheme and host are ASCII-lowercased, an
explicit default port is dropped, and an empty path becomes `/`.  The
URL-shaped theorems quantify over the strings this parser accepts. -/

/-- ASCII letter or digit. -/
def isAsciiAlphaNum (c : Char) : Bool :=
  (65 ≤ c.toNat && c.toNat ≤ 90) || (97 ≤ c.toNat && c.toNat ≤ 122) ||
    (48 ≤ c.toNat && c.toNat ≤ 57)

/-- ASCII decimal digit. -/
def isDigitChar (c : Char) : Bool := 48 ≤ c.toNat && c.toNat ≤ 57

/-- URL scheme characters (ASCII letters). -/
def isSchemeChar (c : Char) : Bool :=
  (65 ≤ c.toNat && c.toNat ≤ 90) || (97 ≤ c.toNat && c.toNat ≤ 122)

/-- Hostname characters: letters, digits, `-` (45), `.` (46). -/
def isHostChar (c : Char) : Bool :=
  isAsciiAlphaNum c || c.toNat = 45 || c.toNat = 46

/-- Path characters: alphanumerics and `/ - . _ ~ ! $ & ( ) * + , ; = : @`
(the characters the WHATWG parser leaves untouched in a path; notably
neither `?` nor `#`). -/
def isPathChar (c : Char) : Bool :=
  isAsciiAlphaNum c ||
    [47, 45, 46, 95, 126, 33, 36, 38, 40, 41, 42, 43, 44, 59, 61, 58, 64].contains c.toNat

/-- Query key characters: alphanumerics and `- . _ ~ ! $ ( ) * , ; : @ / ?`
(no `&`, `=`, `#`, `+` or `%`, which the urlencoded form treats
specially). -/
def isQChar (c : Char) : Bool :=
  isAsciiAlphaNum c ||
    [45, 46, 95, 126, 33, 36, 40, 41, 42, 44, 59, 58, 64, 47, 63].contains c.toNat

/-- Query value characters: query key characters plus `=` (61). -/
def isQValChar (c : Char) : Bool := isQChar c || c.toNat = 61

/-- A parsed absolute URL, mirroring the WHATWG `URL` components the
source reads and writes: `protocol` is `scheme ++ ":"`, `port` is a digit
string or absent, `search` is carried as the parsed key-value list
`params`, and `hash` is the fragment without its `#`. -/
structure URLRec where
  scheme : String
  host : String
  port : Option String
  pathname : String
  params : List (String × String)
  hash : Option String
deriving DecidableEq, Repr

/-- The source's `DEFAULT_PORTS` map, keyed by `protocol` (with colon). -/
def DEFAULT_PORTS (protocol : String) : Option String :=
  if protocol = "http:" then some "80"
  else if protocol = "https:" then some "443"
  else none

/-- One query pair `k=v` (or a bare `k`, read as value `""`). -/
def parseQueryPair (cs : List Char) : Option (String × String) :=
  let k := cs.takeWhile isQChar
  let rest := cs.dropWhile isQChar
  if k.isEmpty then none
  else
    match rest with
    | [] => some (String.mk k, "")
    | '=' :: v => if v.all isQValChar then some (String.mk k, String.mk v) else none
    | _ => none

/-- The query string split at `&` into pairs; empty segments are outside
the modelled grammar. -/
def parseQueryPairs (cs : List Char) : Option (List (String × String)) :=
  let segs := splitOnCharFn '&' cs
  if segs.any List.isEmpty then none
  else segs.mapM parseQueryPair

/-- Continue after the path: nothing, a `?query`, or a `#fragment`. -/
def parseAfterPath (scheme host : String) (port : Option String)
    (pathname : String) (cs : List Char) : Option URLRec :=
  match cs with
  | [] => some ⟨scheme, host, port, pathname, [], none⟩
  | '?' :: rest =>
    let qcs := rest.takeWhile (fun c => c ≠ '#')
    let hrest := rest.dropWhile (fun c => c ≠ '#')
    match parseQueryPairs qcs with
    | none => none
    | some ps =>
      match hrest with
      | [] => some ⟨scheme, host, port, pathname, ps, none⟩
      | _ :: h => some ⟨scheme, host, port, pathname, ps, some (String.mk h)⟩
  | '#' :: h => some ⟨scheme, host, port, pathname, [], some (String.mk h)⟩
  | _ => none

/-- Parse the path (empty path reads as `/`, as WHATWG does for special
schemes; a nonempty path must start with `/`). -/
def parsePath (scheme host : String) (port : Option String)
    (cs : List Char) : Option URLRec :=
  let pcs := cs.takeWhile isPathChar
  let rest := cs.dropWhile isPathChar
  match pcs with
  | [] => parseAfterPath scheme host port "/" rest
  | '/' :: _ => parseAfterPath scheme host port (String.mk pcs) rest
  | _ => none

/-- Parse an explicit `:port`.  As WHATWG does, a default port is dropped
at parse time (so the source's later explicit default-port check is a
no-op, exactly as at runtime); ports above 65535 are rejected;
leading-zero ports are outside the modelled grammar. -/
def parsePort (scheme host : String) (cs : List Char) : Option URLRec :=
  let ds := cs.takeWhile isDigitChar
  let rest := cs.dropWhile isDigitChar
  if ds.isEmpty then none
  else if ds.head? = some '0' ∧ ds ≠ ['0'] then none
  else if 65535 < decListToNat ds then none
  else
    let port := String.mk ds
    let port' := if DEFAULT_PORTS (scheme ++ ":") = some port then none else some port
    parsePath scheme host port' rest

/-- Parse the part after `scheme://`: host, optional port, then path. -/
def parseAuthority (scheme : String) (rest2 : List Char) : Option URLRec :=
  if ¬(scheme = "http" ∨ scheme = "https") then none
  else
    let hcs := rest2.takeWhile isHostChar
    let rest3 := rest2.dropWhile isHostChar
    if hcs.isEmpty then none
    else
      let host := lowerStr (String.mk hcs)
      match rest3 with
      | ':' :: rest4 => parsePort scheme host rest4
      | _ => parsePath scheme host none rest3

/-- Parse an absolute `http`/`https` URL from the modelled grammar. -/
def parseURL (s : String) : Option URLRec :=
  let cs := s.toList
  let sc := cs.takeWhile isSchemeChar
  let rest := cs.dropWhile isSchemeChar
  match rest with
  | ':' :: '/' :: '/' :: rest2 => parseAuthority (lowerStr (String.mk sc)) rest2
  | _ => none

/-- `"k=v"` characters of one query pair (`URLSearchParams` always emits
the `=`). -/
def pairToChars (kv : String × String) : List Char :=
  kv.1.toList ++ '=' :: kv.2.toList

/-- Interpose a separator character between segments. -/
def intercalateChar (sep : Char) : List (List Char) → List Char
  | [] => []
  | [x] => x
  | x :: xs => x ++ sep :: intercalateChar sep xs

/-- The query part of a serialized URL (empty when there are no pairs). -/
def queryChars (ps : List (String × String)) : List Char :=
  if ps.isEmpty then [] else '?' :: intercalateChar '&' (ps.map pairToChars)

/-- The fragment part of a serialized URL. -/
def fragChars (h : Option String) : List Char :=
  match h with
  | some f => '#' :: f.toList
  | none => []

/-- `scheme://host[:port]` characters. -/
def authorityChars (r : URLRec) : List Char :=
  r.scheme.toList ++ [':', '/', '/'] ++ r.host.toList ++
    (match r.port with | some p => ':' :: p.toList | none => [])

/-- The WHATWG serialization (`url.toString()`) of a parsed URL. -/
def serializeURL (r : URLRec) : String :=
  String.mk (authorityChars r ++ r.pathname.toList ++ queryChars r.params ++
    fragChars r.hash)

/-- Lexicographic comparison of character lists by code point (the
`URLSearchParams.sort` key order; the modelled query characters are all
ASCII, where code-point and UTF-16 code-unit order agree). -/
def charListLE : List Char → List Char → Bool
  | [], _ => true
  | _ :: _, [] => false
  | a :: as, b :: bs =>
    if a.toNat < b.toNat then true
    else if b.toNat < a.toNat then false
    else charListLE as bs

/-- The pair order used by `URLSearchParams.sort()`: compare keys only. -/
def paramLE (a b : String × String) : Prop := charListLE a.1.toList b.1.toList = true

instance : DecidableRel paramLE := fun _ _ => instDecidableEqBool _ _

/-- `URLSearchParams.sort()`: stable sort of the pairs by key. -/
def sortParams (ps : List (String × String)) : List (String × String) :=
  ps.insertionSort paramLE

/-- JS `normalized.replace(/\/$/, "")`: drop one trailing slash. -/
def stripTrailingSlash (s : String) : String :=
  if s.toList.getLast? = some '/' then String.mk s.toList.dropLast else s

/-- The record mutations `normalizeUrl` performs before re-serializing:
clear the fragment, clear an explicit default port, sort the query. -/
def normalizedRec (parsed : URLRec) : URLRec :=
  let p1 : URLRec := { parsed with hash := none }
  let p2 : URLRec :=
    if p1.port = DEFAULT_PORTS (p1.scheme ++ ":") then { p1 with port := none } else p1
  { p2 with params := sortParams p2.params }

/-- `normalizeUrl`: parse (`none` models the thrown `TypeError` on a URL
outside the grammar), normalize the record, serialize, and strip a lone
trailing slash only when the path is exactly `/` and there is no query. -/
def normalizeUrl (url : String) : Option String :=
  (parseURL url).map fun parsed =>
    let p := normalizedRec parsed
    let normalized := serializeURL p
    if p.pathname = "/" ∧ p.params.isEmpty then stripTrailingSlash normalized
    else normalized

/-- `extractDomain`: the parsed hostname. -/
def extractDomain (url : String) : Option String :=
  (parseURL url).map URLRec.host

/-! ### List and string helper lemmas -/

lemma takeWhile_append_all {α : Type} {p : α → Bool} {xs ys : List α}
    (h : ∀ c ∈ xs, p c = true) :
    (xs ++ ys).takeWhile p = xs ++ ys.takeWhile p := by
  induction xs with
  | nil => simp
  | cons a l ih =>
    have ha := h a (by simp)
    simp only [List.cons_append, List.takeWhile_cons, ha, if_true]
    rw [ih (fun c hc => h c (by simp [hc]))]

lemma dropWhile_append_all {α : Type} {p : α → Bool} {xs ys : List α}
    (h : ∀ c ∈ xs, p c = true) :
    (xs ++ ys).dropWhile p = ys.dropWhile p := by
  induction xs with
  | nil => simp
  | cons a l ih =>
    have ha := h a (by simp)
    simp only [List.cons_append, List.dropWhile_cons, ha, if_true]
    exact ih (fun c hc => h c (by simp [hc]))

lemma takeWhile_eq_nil_of_head {α : Type} {p : α → Bool} {ys : List α}
    (h : ∀ c, ys.head? = some c → p c = false) :
    ys.takeWhile p = [] := by
  cases ys with
  | nil => rfl
  | cons a l => simp [List.takeWhile_cons, h a rfl]

lemma dropWhile_eq_self_of_head {α : Type} {p : α → Bool} {ys : List α}
    (h : ∀ c, ys.head? = some c → p c = false) :
    ys.dropWhile p = ys := by
  cases ys with
  | nil => rfl
  | cons a l => simp [List.dropWhile_cons, h a rfl]

lemma strMk_toList (s : String) : String.mk s.toList = s := rfl

lemma strMk_eq_empty_iff (l : List Char) : String.mk l = "" ↔ l = [] := by
  constructor
  · intro h
    have h2 : (String.mk l).toList = ("" : String).toList := by rw [h]
    exact h2
  · intro h; rw [h]

/-! ### Character class lemmas -/

lemma toNat_ofNat_valid {n : Nat} (h : n.isValidChar) : (Char.ofNat n).toNat = n := by
  unfold Char.ofNat
  rw [dif_pos h]
  rfl

lemma lowerChar_toNat (c : Char) :
    (lowerChar c).toNat =
      if 65 ≤ c.toNat ∧ c.toNat ≤ 90 then c.toNat + 32 else c.toNat := by
  unfold lowerChar
  split
  · next h => exact toNat_ofNat_valid (Or.inl (by omega))
  · next h => rfl

lemma lowerChar_fixed {c : Char} (h : ¬(65 ≤ c.toNat ∧ c.toNat ≤ 90)) :
    lowerChar c = c := by
  unfold lowerChar
  rw [if_neg h]

lemma lowerChar_not_upper (c : Char) :
    ¬(65 ≤ (lowerChar c).toNat ∧ (lowerChar c).toNat ≤ 90) := by
  rw [lowerChar_toNat]
  split <;> omega

lemma lowerChar_idem (c : Char) : lowerChar (lowerChar c) = lowerChar c :=
  lowerChar_fixed (lowerChar_not_upper c)

lemma isHostChar_lowerChar {c : Char} (h : isHostChar c = true) :
    isHostChar (lowerChar c) = true := by
  unfold isHostChar isAsciiAlphaNum at *
  simp only [Bool.or_eq_true, Bool.and_eq_true, decide_eq_true_eq] at *
  rw [lowerChar_toNat]
  split <;> omega

lemma lowerStr_toList (s : String) : (lowerStr s).toList = s.toList.map lowerChar := rfl

lemma map_lowerChar_self {l : List Char} (h : ∀ c ∈ l, lowerChar c = c) :
    l.map lowerChar = l := by
  induction l with
  | nil => rfl
  | cons a t ih =>
    simp only [List.map_cons, h a (by simp)]
    rw [ih (fun c hc => h c (by simp [hc]))]

lemma lowerStr_id {s : String} (h : ∀ c ∈ s.toList, lowerChar c = c) :
    lowerStr s = s := by
  unfold lowerStr
  rw [map_lowerChar_self h, strMk_toList]

/-! ### Canonical parsed records -/

/-- A well-formed query pair as the parser produces it. -/
def PairOK (kv : String × String) : Prop :=
  kv.1.toList ≠ [] ∧ (∀ c ∈ kv.1.toList, isQChar c = true) ∧
    (∀ c ∈ kv.2.toList, isQValChar c = true)

/-- A well-formed pathname: starts with `/`, all path characters. -/
def PathOK (p : String) : Prop :=
  p.toList.head? = some '/' ∧ ∀ c ∈ p.toList, isPathChar c = true

/-- A well-formed port for a scheme: nonempty digits, no leading zero,
at most 65535, and not the scheme's default. -/
def PortOK (scheme : String) : Option String → Prop
  | none => True
  | some p => p.toList ≠ [] ∧ (∀ c ∈ p.toList, isDigitChar c = true) ∧
      (p.toList.head? = some '0' → p.toList = ['0']) ∧
      decListToNat p.toList ≤ 65535 ∧
      DEFAULT_PORTS (scheme ++ ":") ≠ some p

/-- Everything `parseURL` guarantees about the records it returns; this is
exactly what makes a record re-parse from its serialization. -/
structure Canonical (r : URLRec) : Prop where
  scheme_ok : r.scheme = "http" ∨ r.scheme = "https"
  host_ne : r.host.toList ≠ []
  host_chars : ∀ c ∈ r.host.toList,
    isHostChar c = true ∧ ¬(65 ≤ c.toNat ∧ c.toNat ≤ 90)
  port_ok : PortOK r.scheme r.port
  path_ok : PathOK r.pathname
  params_ok : ∀ kv ∈ r.params, PairOK kv

lemma mapM_mem {α β : Type} {f : α → Option β} :
    ∀ {l : List α} {out : List β}, l.mapM f = some out →
      ∀ b ∈ out, ∃ a ∈ l, f a = some b := by
  intro l
  induction l with
  | nil =>
    intro out h b hb
    simp only [List.mapM_nil, Option.pure_def, Option.some.injEq] at h
    subst h
    cases hb
  | cons a t ih =>
    intro out h b hb
    simp only [List.mapM_cons, Option.pure_def, Option.bind_eq_bind,
      Option.bind_eq_some] at h
    obtain ⟨y, hy, rest, hrest, hout⟩ := h
    rw [Option.some.injEq] at hout
    subst hout
    rcases List.mem_cons.mp hb with rfl | hb'
    · exact ⟨a, by simp, hy⟩
    · obtain ⟨a', ha', hfa'⟩ := ih hrest b hb'
      exact ⟨a', by simp [ha'], hfa'⟩

lemma parseQueryPair_ok {cs : List Char} {kv : String × String}
    (h : parseQueryPair cs = some kv) : PairOK kv := by
  simp only [parseQueryPair] at h
  split at h
  · cases h
  · next hk =>
    split at h
    · next heq =>
      rw [Option.some.injEq] at h
      subst h
      refine ⟨by simpa [List.isEmpty_iff] using hk, ?_, by simp⟩
      intro c hc
      exact List.mem_takeWhile_imp hc
    · next v heq =>
      split at h
      · next hall =>
        rw [Option.some.injEq] at h
        subst h
        refine ⟨by simpa [List.isEmpty_iff] using hk, ?_, ?_⟩
        · intro c hc
          exact List.mem_takeWhile_imp hc
        · intro c hc
          exact List.all_eq_true.mp hall c hc
      · cases h
    · cases h

lemma parseQueryPairs_ok {cs : List Char} {ps : List (String × String)}
    (h : parseQueryPairs cs = some ps) : ∀ kv ∈ ps, PairOK kv := by
  simp only [parseQueryPairs] at h
  split at h
  · cases h
  · intro kv hkv
    obtain ⟨seg, _, hseg⟩ := mapM_mem h kv hkv
    exact parseQueryPair_ok hseg

lemma parseAfterPath_ok {scheme host : String} {port : Option String}
    {pathname : String} {cs : List Char} {r : URLRec}
    (h : parseAfterPath scheme host port pathname cs = some r) :
    r.scheme = scheme ∧ r.host = host ∧ r.port = port ∧
      r.pathname = pathname ∧ ∀ kv ∈ r.params, PairOK kv := by
  simp only [parseAfterPath] at h
  split at h
  · rw [Option.some.injEq] at h
    subst h
    exact ⟨rfl, rfl, rfl, rfl, by simp⟩
  · next rest =>
    split at h
    · cases h
    · next ps hps =>
      have hok := parseQueryPairs_ok hps
      split at h <;> rw [Option.some.injEq] at h <;> subst h
      · exact ⟨rfl, rfl, rfl, rfl, hok⟩
      · exact ⟨rfl, rfl, rfl, rfl, hok⟩
  · rw [Option.some.injEq] at h
    subst h
    exact ⟨rfl, rfl, rfl, rfl, by simp⟩
  · cases h

lemma parsePath_ok {scheme host : String} {port : Option String}
    {cs : List Char} {r : URLRec}
    (h : parsePath scheme host port cs = some r) :
    r.scheme = scheme ∧ r.host = host ∧ r.port = port ∧
      PathOK r.pathname ∧ ∀ kv ∈ r.params, PairOK kv := by
  simp only [parsePath] at h
  split at h
  · obtain ⟨h1, h2, h3, h4, h5⟩ := parseAfterPath_ok h
    exact ⟨h1, h2, h3, by rw [h4]; exact ⟨rfl, by decide⟩, h5⟩
  · next c tail heq =>
    obtain ⟨h1, h2, h3, h4, h5⟩ := parseAfterPath_ok h
    refine ⟨h1, h2, h3, ?_, h5⟩
    rw [h4]
    constructor
    · show (List.takeWhile isPathChar cs).head? = some '/'
      rw [heq]; rfl
    · intro ch hch
      exact List.mem_takeWhile_imp (show ch ∈ List.takeWhile isPathChar cs from hch)
  · cases h

lemma parsePort_ok {scheme host : String} {cs : List Char} {r : URLRec}
    (h : parsePort scheme host cs = some r) :
    r.scheme = scheme ∧ r.host = host ∧ PortOK scheme r.port ∧
      PathOK r.pathname ∧ ∀ kv ∈ r.params, PairOK kv := by
  simp only [parsePort] at h
  split at h
  · cases h
  · split at h
    · cases h
    · next hlead =>
      split at h
      · cases h
      · next hval =>
        next hne =>
        obtain ⟨h1, h2, h3, h4, h5⟩ := parsePath_ok h
        refine ⟨h1, h2, ?_, h4, h5⟩
        rw [h3]
        by_cases hdef :
            DEFAULT_PORTS (scheme ++ ":") = some (String.mk (cs.takeWhile isDigitChar))
        · simp only [hdef, if_pos rfl]
          trivial
        · rw [if_neg hdef]
          refine ⟨by simpa [List.isEmpty_iff] using hne, ?_, ?_,
            by show decListToNat (cs.takeWhile isDigitChar) ≤ 65535; omega, hdef⟩
          · intro c hc
            exact List.mem_takeWhile_imp hc
          · intro h0
            by_contra hne1
            exact hlead ⟨h0, hne1⟩

lemma lowerHostFacts (cs : List Char)
    (hhost : ¬(cs.takeWhile isHostChar).isEmpty = true) :
    (lowerStr (String.mk (cs.takeWhile isHostChar))).toList ≠ [] ∧
      ∀ c ∈ (lowerStr (String.mk (cs.takeWhile isHostChar))).toList,
        isHostChar c = true ∧ ¬(65 ≤ c.toNat ∧ c.toNat ≤ 90) := by
  constructor
  · rw [lowerStr_toList]
    intro hmap
    rw [List.map_eq_nil_iff] at hmap
    rw [List.isEmpty_iff] at hhost
    exact hhost (by simpa using hmap)
  · intro c hc
    rw [lowerStr_toList] at hc
    obtain ⟨c2, hc2, rfl⟩ := List.mem_map.mp hc
    have hmem := List.mem_takeWhile_imp
      (show c2 ∈ cs.takeWhile isHostChar from by simpa using hc2)
    exact ⟨isHostChar_lowerChar hmem, lowerChar_not_upper c2⟩

lemma parseAuthority_canonical {scheme : String} {rest2 : List Char} {r : URLRec}
    (h : parseAuthority scheme rest2 = some r) : Canonical r := by
  simp only [parseAuthority] at h
  split at h
  · cases h
  · next hs =>
    push_neg at hs
    split at h
    · cases h
    · next hhost =>
      split at h
      · obtain ⟨h1, h2, h3, h4, h5⟩ := parsePort_ok h
        obtain ⟨hne, hchars⟩ := lowerHostFacts _ hhost
        exact ⟨h1 ▸ hs, h2 ▸ hne, h2 ▸ hchars, h1 ▸ h3, h4, h5⟩
      · obtain ⟨h1, h2, h3, h4, h5⟩ := parsePath_ok h
        obtain ⟨hne, hchars⟩ := lowerHostFacts _ hhost
        refine ⟨h1 ▸ hs, h2 ▸ hne, h2 ▸ hchars, ?_, h4, h5⟩
        rw [h3]
        trivial

lemma parseURL_canonical {u : String} {r : URLRec}
    (h : parseURL u = some r) : Canonical r := by
  simp only [parseURL] at h
  split at h
  · exact parseAuthority_canonical h
  · cases h

/-! ### Sorting lemmas -/

lemma charListLE_total : ∀ as bs : List Char,
    charListLE as bs = true ∨ charListLE bs as = true := by
  intro as
  induction as with
  | nil => intro bs; left; rfl
  | cons a as ih =>
    intro bs
    cases bs with
    | nil => right; rfl
    | cons b bs =>
      simp only [charListLE]
      rcases Nat.lt_trichotomy a.toNat b.toNat with h | h | h
      · left; simp [h]
      · have hne1 : ¬a.toNat < b.toNat := by omega
        have hne2 : ¬b.toNat < a.toNat := by omega
        simp only [hne1, hne2, if_false]
        exact ih bs
      · right; simp [h]

lemma charListLE_trans : ∀ as bs cs : List Char,
    charListLE as bs = true → charListLE bs cs = true →
      charListLE as cs = true := by
  intro as
  induction as with
  | nil => intro bs cs _ _; rfl
  | cons a as ih =>
    intro bs cs h1 h2
    cases bs with
    | nil => cases h1
    | cons b bs =>
      cases cs with
      | nil => cases h2
      | cons c cs =>
        simp only [charListLE] at h1 h2 ⊢
        by_cases hab : a.toNat < b.toNat
        · by_cases hbc : b.toNat < c.toNat
          · simp [show a.toNat < c.toNat by omega]
          · by_cases hcb : c.toNat < b.toNat
            · simp only [hbc, if_false, hcb, if_true] at h2
              cases h2
            · simp [show a.toNat < c.toNat by omega]
        · by_cases hba : b.toNat < a.toNat
          · simp only [hab, if_false, hba, if_true] at h1
            cases h1
          · by_cases hbc : b.toNat < c.toNat
            · simp [show a.toNat < c.toNat by omega]
            · by_cases hcb : c.toNat < b.toNat
              · simp only [hbc, if_false, hcb, if_true] at h2
                cases h2
              · have hac : ¬a.toNat < c.toNat := by omega
                have hca : ¬c.toNat < a.toNat := by omega
                simp only [hab, hba, if_false] at h1
                simp only [hbc, hcb, if_false] at h2
                simp only [hac, hca, if_false]
                exact ih bs cs h1 h2

instance : IsTotal (String × String) paramLE :=
  ⟨fun a b => charListLE_total a.1.toList b.1.toList⟩

instance : IsTrans (String × String) paramLE :=
  ⟨fun _ _ _ h1 h2 => charListLE_trans _ _ _ h1 h2⟩

lemma sortParams_perm (ps : List (String × String)) :
    (sortParams ps).Perm ps :=
  List.perm_insertionSort paramLE ps

lemma sortParams_sorted (ps : List (String × String)) :
    List.Sorted paramLE (sortParams ps) :=
  List.sorted_insertionSort paramLE ps

lemma sortParams_idem (ps : List (String × String)) :
    sortParams (sortParams ps) = sortParams ps :=
  List.Sorted.insertionSort_eq (sortParams_sorted ps)

lemma sortParams_eq_nil_iff (ps : List (String × String)) :
    sortParams ps = [] ↔ ps = [] := by
  constructor
  · intro h
    have hl := (sortParams_perm ps).length_eq
    rw [h] at hl
    exact List.eq_nil_of_length_eq_zero hl.symm
  · intro h
    rw [h]
    rfl

lemma sortParams_mem_iff {ps : List (String × String)} {kv : String × String} :
    kv ∈ sortParams ps ↔ kv ∈ ps :=
  (sortParams_perm ps).mem_iff

/-! ### Query serialization round trip -/

lemma splitOnCharFn_ne_nil (sep : Char) (cs : List Char) :
    splitOnCharFn sep cs ≠ [] := by
  induction cs with
  | nil => simp [splitOnCharFn]
  | cons c rest ih =>
    simp only [splitOnCharFn]
    split
    · simp
    · split
      · simp
      · simp

lemma splitOnCharFn_append_no_sep {sep : Char} {xs ys : List Char}
    (h : ∀ c ∈ xs, c ≠ sep) :
    ∃ hd tl, splitOnCharFn sep ys = hd :: tl ∧
      splitOnCharFn sep (xs ++ ys) = (xs ++ hd) :: tl := by
  induction xs with
  | nil =>
    cases heq : splitOnCharFn sep ys with
    | nil => exact absurd heq (splitOnCharFn_ne_nil sep ys)
    | cons hd tl => exact ⟨hd, tl, rfl, by simp [heq]⟩
  | cons a xs ih =>
    have ha : a ≠ sep := h a (by simp)
    obtain ⟨hd, tl, h1, h2⟩ := ih (fun c hc => h c (by simp [hc]))
    refine ⟨hd, tl, h1, ?_⟩
    have h2x : splitOnCharFn sep (xs.append ys) = (xs ++ hd) :: tl := h2
    simp only [List.cons_append, splitOnCharFn, if_neg ha, h2x]

lemma splitOnCharFn_cons_sep (sep : Char) (cs : List Char) :
    splitOnCharFn sep (sep :: cs) = [] :: splitOnCharFn sep cs := by
  simp [splitOnCharFn]

lemma splitOnCharFn_intercalate {sep : Char} :
    ∀ segs : List (List Char), segs ≠ [] →
      (∀ seg ∈ segs, ∀ c ∈ seg, c ≠ sep) →
      splitOnCharFn sep (intercalateChar sep segs) = segs := by
  intro segs
  induction segs with
  | nil => intro h; cases h rfl
  | cons x xs ih =>
    intro _ hall
    have hx : ∀ c ∈ x, c ≠ sep := hall x (by simp)
    cases xs with
    | nil =>
      obtain ⟨hd, tl, h1, h2⟩ :=
        @splitOnCharFn_append_no_sep sep x ([] : List Char) hx
      simp only [splitOnCharFn] at h1
      rw [List.cons.injEq] at h1
      obtain ⟨he1, he2⟩ := h1
      subst he1
      subst he2
      simpa [intercalateChar] using h2
    | cons y ys =>
      have hrec : splitOnCharFn sep (intercalateChar sep (y :: ys)) = y :: ys :=
        ih (by simp) (fun seg hseg => hall seg (by simp [hseg]))
      obtain ⟨hd, tl, h1, h2⟩ :=
        @splitOnCharFn_append_no_sep sep x (sep :: intercalateChar sep (y :: ys)) hx
      rw [splitOnCharFn_cons_sep, hrec] at h1
      rw [List.cons.injEq] at h1
      obtain ⟨he1, he2⟩ := h1
      subst he1
      subst he2
      show splitOnCharFn sep (intercalateChar sep (x :: y :: ys)) = x :: y :: ys
      have hint : intercalateChar sep (x :: y :: ys) =
          x ++ sep :: intercalateChar sep (y :: ys) := rfl
      rw [hint, h2]
      simp

lemma parseQueryPair_pairToChars {kv : String × String} (h : PairOK kv) :
    parseQueryPair (pairToChars kv) = some kv := by
  obtain ⟨hk, hkc, hvc⟩ := h
  have heq : isQChar '=' = false := by decide
  simp only [parseQueryPair, pairToChars]
  rw [takeWhile_append_all hkc, dropWhile_append_all hkc]
  rw [@takeWhile_eq_nil_of_head _ isQChar _ (fun c hc => by
    simp only [List.head?_cons, Option.some.injEq] at hc
    rw [← hc]; exact heq)]
  rw [@dropWhile_eq_self_of_head _ isQChar _ (fun c hc => by
    simp only [List.head?_cons, Option.some.injEq] at hc
    rw [← hc]; exact heq)]
  rw [List.append_nil]
  rw [if_neg (by simpa [List.isEmpty_iff] using hk)]
  have hall : kv.2.toList.all isQValChar = true := List.all_eq_true.mpr hvc
  simp only [hall, if_true, strMk_toList]

lemma mapM_pairToChars_round :
    ∀ ps : List (String × String), (∀ kv ∈ ps, PairOK kv) →
      (ps.map pairToChars).mapM parseQueryPair = some ps := by
  intro ps
  induction ps with
  | nil => intro _; rfl
  | cons kv t ih =>
    intro h
    have h1 := parseQueryPair_pairToChars (h kv (by simp))
    have h2 := ih (fun kv' hkv' => h kv' (by simp [hkv']))
    rw [List.map_cons, List.mapM_cons, h1, h2]
    rfl

lemma pairToChars_no_amp {kv : String × String} (h : PairOK kv) :
    ∀ c ∈ pairToChars kv, c ≠ '&' := by
  obtain ⟨_, hkc, hvc⟩ := h
  intro c hc
  rcases List.mem_append.mp hc with h1 | h2
  · intro rfl2
    subst rfl2
    have := hkc _ h1
    simp [isQChar, isAsciiAlphaNum] at this
  · rcases List.mem_cons.mp h2 with rfl | h3
    · decide
    · intro rfl2
      subst rfl2
      have := hvc _ h3
      simp [isQValChar, isQChar, isAsciiAlphaNum] at this

lemma pairToChars_no_hash {kv : String × String} (h : PairOK kv) :
    ∀ c ∈ pairToChars kv, c ≠ '#' := by
  obtain ⟨_, hkc, hvc⟩ := h
  intro c hc
  rcases List.mem_append.mp hc with h1 | h2
  · intro rfl2
    subst rfl2
    have := hkc _ h1
    simp [isQChar, isAsciiAlphaNum] at this
  · rcases List.mem_cons.mp h2 with rfl | h3
    · decide
    · intro rfl2
      subst rfl2
      have := hvc _ h3
      simp [isQValChar, isQChar, isAsciiAlphaNum] at this

lemma parseQueryPairs_round {ps : List (String × String)} (hne : ps ≠ [])
    (h : ∀ kv ∈ ps, PairOK kv) :
    parseQueryPairs (intercalateChar '&' (ps.map pairToChars)) = some ps := by
  have hsplit : splitOnCharFn '&' (intercalateChar '&' (ps.map pairToChars)) =
      ps.map pairToChars := by
    apply splitOnCharFn_intercalate
    · simpa using hne
    · intro seg hseg
      obtain ⟨kv, hkv, rfl⟩ := List.mem_map.mp hseg
      exact pairToChars_no_amp (h kv hkv)
  have hnoempty : (ps.map pairToChars).any List.isEmpty = false := by
    rw [List.any_eq_false]
    intro seg hseg
    obtain ⟨kv, hkv, rfl⟩ := List.mem_map.mp hseg
    obtain ⟨hk, _, _⟩ := h kv hkv
    simp only [pairToChars]
    intro habs
    rw [List.isEmpty_iff] at habs
    exact hk (by simpa using List.append_eq_nil.mp habs |>.1)
  simp only [parseQueryPairs, hsplit, hnoempty, Bool.false_eq_true, if_false]
  exact mapM_pairToChars_round ps h

lemma mem_intercalateChar {sep : Char} :
    ∀ {segs : List (List Char)} {c : Char},
      c ∈ intercalateChar sep segs → c = sep ∨ ∃ seg ∈ segs, c ∈ seg := by
  intro segs
  induction segs with
  | nil => intro c hc; cases hc
  | cons x xs ih =>
    intro c hc
    cases xs with
    | nil => right; exact ⟨x, by simp, hc⟩
    | cons y ys =>
      rw [show intercalateChar sep (x :: y :: ys) =
        x ++ sep :: intercalateChar sep (y :: ys) from rfl] at hc
      rcases List.mem_append.mp hc with h1 | h2
      · right; exact ⟨x, by simp, h1⟩
      · rcases List.mem_cons.mp h2 with rfl | h3
        · left; rfl
        · rcases ih h3 with h | ⟨seg, hseg, hcseg⟩
          · left; exact h
          · right; exact ⟨seg, by simp [hseg], hcseg⟩

lemma query_body_no_hash {ps : List (String × String)}
    (hps : ∀ kv ∈ ps, PairOK kv) :
    ∀ c ∈ intercalateChar '&' (ps.map pairToChars), c ≠ '#' := by
  intro c hc
  rcases mem_intercalateChar hc with rfl | ⟨seg, hseg, hcseg⟩
  · decide
  · obtain ⟨kv, hkv, rfl⟩ := List.mem_map.mp hseg
    exact pairToChars_no_hash (hps kv hkv) c hcseg

lemma parseAfterPath_round {scheme host : String} {port : Option String}
    {pathname : String} {ps : List (String × String)} {hash : Option String}
    (hps : ∀ kv ∈ ps, PairOK kv) :
    parseAfterPath scheme host port pathname (queryChars ps ++ fragChars hash) =
      some ⟨scheme, host, port, pathname, ps, hash⟩ := by
  by_cases hpe : ps.isEmpty
  · have hps0 : ps = [] := List.isEmpty_iff.mp hpe
    subst hps0
    simp only [queryChars, List.isEmpty_nil, if_true, List.nil_append]
    cases hash with
    | none => rfl
    | some f => simp [parseAfterPath, fragChars, strMk_toList]
  · have hne : ps ≠ [] := fun habs => hpe (List.isEmpty_iff.mpr habs)
    have hqc : queryChars ps = '?' :: intercalateChar '&' (ps.map pairToChars) := by
      simp [queryChars, hpe]
    rw [hqc, List.cons_append]
    simp only [parseAfterPath]
    have hqb : ∀ c ∈ intercalateChar '&' (ps.map pairToChars),
        (fun c => decide (c ≠ '#')) c = true := by
      intro c hc
      simpa using query_body_no_hash hps c hc
    rw [takeWhile_append_all hqb, dropWhile_append_all hqb]
    have hfrag1 : (fragChars hash).takeWhile (fun c => decide (c ≠ '#')) = [] := by
      apply takeWhile_eq_nil_of_head
      intro c hc
      cases hash with
      | none => cases hc
      | some f =>
        simp only [fragChars, List.head?_cons, Option.some.injEq] at hc
        subst hc
        decide
    have hfrag2 : (fragChars hash).dropWhile (fun c => decide (c ≠ '#')) =
        fragChars hash := by
      apply dropWhile_eq_self_of_head
      intro c hc
      cases hash with
      | none => cases hc
      | some f =>
        simp only [fragChars, List.head?_cons, Option.some.injEq] at hc
        subst hc
        decide
    rw [hfrag1, hfrag2, List.append_nil]
    rw [parseQueryPairs_round hne hps]
    cases hash with
    | none => rfl
    | some f => simp [fragChars, strMk_toList]

lemma queryFrag_head_not_path {ps : List (String × String)} {hash : Option String} :
    ∀ c, (queryChars ps ++ fragChars hash).head? = some c → isPathChar c = false := by
  intro c hc
  by_cases hpe : ps.isEmpty
  · have hps0 : ps = [] := List.isEmpty_iff.mp hpe
    subst hps0
    simp only [queryChars, List.isEmpty_nil, if_true, List.nil_append] at hc
    cases hash with
    | none => cases hc
    | some f =>
      simp only [fragChars, List.head?_cons, Option.some.injEq] at hc
      subst hc
      decide
  · simp only [queryChars, hpe, Bool.false_eq_true, if_false, List.cons_append,
      List.head?_cons, Option.some.injEq] at hc
    subst hc
    decide

lemma parsePath_round {scheme host : String} {port : Option String}
    {path : String} {ps : List (String × String)} {hash : Option String}
    (hpath : PathOK path) (hps : ∀ kv ∈ ps, PairOK kv) :
    parsePath scheme host port
        (path.toList ++ (queryChars ps ++ fragChars hash)) =
      some ⟨scheme, host, port, path, ps, hash⟩ := by
  obtain ⟨hhead, hchars⟩ := hpath
  simp only [parsePath]
  rw [takeWhile_append_all hchars, dropWhile_append_all hchars]
  rw [takeWhile_eq_nil_of_head queryFrag_head_not_path,
    dropWhile_eq_self_of_head queryFrag_head_not_path, List.append_nil]
  obtain ⟨t, ht⟩ : ∃ t, path.toList = '/' :: t := by
    cases hpt : path.toList with
    | nil => rw [hpt] at hhead; cases hhead
    | cons c t =>
      rw [hpt] at hhead
      simp only [List.head?_cons, Option.some.injEq] at hhead
      subst hhead
      exact ⟨t, rfl⟩
  rw [ht]
  have : String.mk ('/' :: t) = path := by rw [← ht, strMk_toList]
  rw [this]
  exact parseAfterPath_round hps

lemma parsePort_round {scheme host p : String}
    (hport : PortOK scheme (some p)) (tail : List Char)
    (ht : tail = [] ∨ tail.head? = some '/') :
    parsePort scheme host (p.toList ++ tail) = parsePath scheme host (some p) tail := by
  obtain ⟨hne, hdig, hlead, hval, hdef⟩ := hport
  have htail : ∀ c, tail.head? = some c → isDigitChar c = false := by
    intro c hcc
    rcases ht with rfl | hh
    · cases hcc
    · rw [hh, Option.some.injEq] at hcc
      subst hcc
      decide
  simp only [parsePort]
  rw [takeWhile_append_all hdig, dropWhile_append_all hdig,
    takeWhile_eq_nil_of_head htail, dropWhile_eq_self_of_head htail,
    List.append_nil]
  rw [if_neg (show ¬(p.toList.isEmpty = true) by simpa [List.isEmpty_iff] using hne)]
  rw [if_neg (show ¬(p.toList.head? = some '0' ∧ p.toList ≠ ['0']) by
    rintro ⟨h0, hne0⟩
    exact hne0 (hlead h0))]
  rw [if_neg (show ¬(65535 < decListToNat p.toList) by omega)]
  simp only [strMk_toList]
  rw [if_neg hdef]

lemma parseAuthority_build {r : URLRec} (hc : Canonical r) (tail : List Char)
    (ht : tail = [] ∨ tail.head? = some '/') :
    parseAuthority r.scheme (r.host.toList ++
        ((match r.port with | some p => ':' :: p.toList | none => []) ++ tail)) =
      parsePath r.scheme r.host r.port tail := by
  have hhostchars : ∀ c ∈ r.host.toList, isHostChar c = true :=
    fun c hcm => (hc.host_chars c hcm).1
  have hhostfix : ∀ c ∈ r.host.toList, lowerChar c = c :=
    fun c hcm => lowerChar_fixed (hc.host_chars c hcm).2
  have hhostne : ¬(r.host.toList.isEmpty = true) := by
    simpa [List.isEmpty_iff] using hc.host_ne
  simp only [parseAuthority]
  rw [if_neg (not_not_intro hc.scheme_ok)]
  rw [takeWhile_append_all hhostchars, dropWhile_append_all hhostchars]
  cases hp : r.port with
  | some p =>
    have hstop : ∀ c, ((':' :: p.toList) ++ tail).head? = some c →
        isHostChar c = false := by
      intro c hcc
      simp only [List.cons_append, List.head?_cons, Option.some.injEq] at hcc
      subst hcc
      decide
    rw [takeWhile_eq_nil_of_head hstop, dropWhile_eq_self_of_head hstop,
      List.append_nil]
    rw [if_neg hhostne]
    rw [strMk_toList, lowerStr_id hhostfix]
    show parsePort r.scheme r.host (p.toList ++ tail) =
      parsePath r.scheme r.host (some p) tail
    exact parsePort_round (hp ▸ hc.port_ok) tail ht
  | none =>
    simp only [List.nil_append]
    have hstop : ∀ c, tail.head? = some c → isHostChar c = false := by
      intro c hcc
      rcases ht with rfl | hh
      · cases hcc
      · rw [hh, Option.some.injEq] at hcc
        subst hcc
        decide
    rw [takeWhile_eq_nil_of_head hstop, dropWhile_eq_self_of_head hstop,
      List.append_nil]
    rw [if_neg hhostne]
    rw [strMk_toList, lowerStr_id hhostfix]
    rcases ht with rfl | hh
    · rfl
    · obtain ⟨t, rfl⟩ : ∃ t, tail = '/' :: t := by
        cases tail with
        | nil => cases hh
        | cons c t =>
          rw [List.head?_cons, Option.some.injEq] at hh
          subst hh
          exact ⟨t, rfl⟩
      rfl

lemma parseURL_build {s : String} {r : URLRec} (hc : Canonical r) {tail : List Char}
    (hs : s.toList = r.scheme.toList ++ ':' :: '/' :: '/' ::
      (r.host.toList ++
        ((match r.port with | some p => ':' :: p.toList | none => []) ++ tail)))
    (ht : tail = [] ∨ tail.head? = some '/') :
    parseURL s = parsePath r.scheme r.host r.port tail := by
  have hschars : ∀ c ∈ r.scheme.toList, isSchemeChar c = true := by
    rcases hc.scheme_ok with h | h <;> rw [h] <;> decide
  have hsfix : ∀ c ∈ r.scheme.toList, lowerChar c = c := by
    rcases hc.scheme_ok with h | h <;> rw [h] <;> decide
  have hcolon : ∀ c : Char,
      (':' :: '/' :: '/' ::
        (r.host.toList ++
          ((match r.port with | some p => ':' :: p.toList | none => []) ++
            tail))).head? = some c → isSchemeChar c = false := by
    intro c hcc
    rw [List.head?_cons, Option.some.injEq] at hcc
    subst hcc
    decide
  simp only [parseURL, hs]
  rw [takeWhile_append_all hschars, dropWhile_append_all hschars,
    takeWhile_eq_nil_of_head hcolon, dropWhile_eq_self_of_head hcolon,
    List.append_nil]
  show parseAuthority (lowerStr (String.mk r.scheme.toList)) _ = _
  rw [strMk_toList, lowerStr_id hsfix]
  exact parseAuthority_build hc tail ht

lemma parse_serializeURL {r : URLRec} (hc : Canonical r) :
    parseURL (serializeURL r) = some r := by
  obtain ⟨t, ht⟩ : ∃ t, r.pathname.toList = '/' :: t := by
    obtain ⟨hhead, _⟩ := hc.path_ok
    cases hpt : r.pathname.toList with
    | nil => rw [hpt] at hhead; cases hhead
    | cons c t2 =>
      rw [hpt, List.head?_cons, Option.some.injEq] at hhead
      subst hhead
      exact ⟨t2, rfl⟩
  have hs : (serializeURL r).toList = r.scheme.toList ++ ':' :: '/' :: '/' ::
      (r.host.toList ++
        ((match r.port with | some p => ':' :: p.toList | none => []) ++
          (r.pathname.toList ++ (queryChars r.params ++ fragChars r.hash)))) := by
    simp [serializeURL, authorityChars, List.append_assoc]
  have hhead2 : (r.pathname.toList ++
      (queryChars r.params ++ fragChars r.hash)).head? = some '/' := by
    rw [ht]
    rfl
  rw [parseURL_build hc hs (Or.inr hhead2)]
  rw [parsePath_round hc.path_ok hc.params_ok]

lemma normalizedRec_canonical {r : URLRec} (hc : Canonical r) :
    Canonical (normalizedRec r) := by
  obtain ⟨sch, ho, po, pa, qs, ha⟩ := r
  obtain ⟨hs, hh, hhc, hpo, hpa, hq⟩ := hc
  simp only [normalizedRec]
  split
  · exact ⟨hs, hh, hhc, trivial, hpa,
      fun kv hkv => hq kv (sortParams_mem_iff.mp hkv)⟩
  · exact ⟨hs, hh, hhc, hpo, hpa,
      fun kv hkv => hq kv (sortParams_mem_iff.mp hkv)⟩

lemma normalizedRec_fields (r : URLRec) :
    (normalizedRec r).scheme = r.scheme ∧ (normalizedRec r).host = r.host ∧
      (normalizedRec r).pathname = r.pathname ∧
      (normalizedRec r).params = sortParams r.params ∧
      (normalizedRec r).hash = none := by
  obtain ⟨sch, ho, po, pa, qs, ha⟩ := r
  simp only [normalizedRec]
  split <;> exact ⟨rfl, rfl, rfl, rfl, rfl⟩

lemma normalizedRec_fixpoint {r : URLRec} (hc : Canonical r) (hh : r.hash = none)
    (hsorted : List.Sorted paramLE r.params) : normalizedRec r = r := by
  have hport : ¬({ r with hash := none } : URLRec).port =
      DEFAULT_PORTS (({ r with hash := none } : URLRec).scheme ++ ":") := by
    show ¬r.port = DEFAULT_PORTS (r.scheme ++ ":")
    cases hp : r.port with
    | some p =>
      have := hc.port_ok
      rw [hp] at this
      obtain ⟨_, _, _, _, hdef⟩ := this
      intro habs
      exact hdef habs.symm
    | none =>
      rcases hc.scheme_ok with h | h <;> rw [h] <;> intro habs <;> cases habs
  simp only [normalizedRec, if_neg hport]
  have hsp : sortParams r.params = r.params :=
    List.Sorted.insertionSort_eq hsorted
  obtain ⟨sch, ho, po, pa, qs, ha⟩ := r
  simp only at hsp hh
  simp [hsp, hh]

lemma normalizeUrl_cases {u s : String} (h : normalizeUrl u = some s) :
    ∃ r, parseURL u = some r ∧
      s = (if (normalizedRec r).pathname = "/" ∧ (normalizedRec r).params.isEmpty
        then stripTrailingSlash (serializeURL (normalizedRec r))
        else serializeURL (normalizedRec r)) := by
  unfold normalizeUrl at h
  cases hp : parseURL u with
  | none => rw [hp] at h; cases h
  | some r =>
    rw [hp] at h
    simp only [Option.map_some'] at h
    rw [Option.some.injEq] at h
    exact ⟨r, rfl, h.symm⟩

lemma URLRec_eta_root (x : URLRec) (hp : x.pathname = "/") (hq : x.params = [])
    (hh : x.hash = none) :
    (⟨x.scheme, x.host, x.port, "/", [], none⟩ : URLRec) = x := by
  obtain ⟨a, b, c, d, e, f⟩ := x
  simp only at hp hq hh
  rw [hp, hq, hh]

/-- The central round-trip fact: a successful `normalizeUrl` output
re-parses to exactly the normalized record, and the record is a fixpoint
of normalization. -/
lemma normalizeUrl_main {u s : String} (h : normalizeUrl u = some s) :
    ∃ r, parseURL u = some r ∧ parseURL s = some (normalizedRec r) ∧
      normalizedRec (normalizedRec r) = normalizedRec r ∧
      s = (if (normalizedRec r).pathname = "/" ∧ (normalizedRec r).params.isEmpty
        then stripTrailingSlash (serializeURL (normalizedRec r))
        else serializeURL (normalizedRec r)) := by
  obtain ⟨r, hparse, hout⟩ := normalizeUrl_cases h
  have hc := parseURL_canonical hparse
  have hcp : Canonical (normalizedRec r) := normalizedRec_canonical hc
  obtain ⟨hf1, hf2, hf3, hf4, hf5⟩ := normalizedRec_fields r
  have hpsorted : List.Sorted paramLE (normalizedRec r).params := by
    rw [hf4]; exact sortParams_sorted r.params
  have hfix : normalizedRec (normalizedRec r) = normalizedRec r :=
    normalizedRec_fixpoint hcp hf5 hpsorted
  refine ⟨r, hparse, ?_, hfix, hout⟩
  by_cases hcond :
      (normalizedRec r).pathname = "/" ∧ (normalizedRec r).params.isEmpty
  · rw [if_pos hcond] at hout
    have hparams : (normalizedRec r).params = [] := List.isEmpty_iff.mp hcond.2
    have hser : (serializeURL (normalizedRec r)).toList =
        authorityChars (normalizedRec r) ++ ['/'] := by
      simp [serializeURL, hcond.1, hparams, hf5, queryChars, fragChars]
    have hstrip : s.toList = authorityChars (normalizedRec r) := by
      rw [hout]
      simp only [stripTrailingSlash, hser]
      rw [if_pos (by rw [List.getLast?_concat])]
      simp [List.dropLast_concat]
    have hs_toList : s.toList =
        (normalizedRec r).scheme.toList ++ ':' :: '/' :: '/' ::
          ((normalizedRec r).host.toList ++
            ((match (normalizedRec r).port with
              | some p => ':' :: p.toList | none => []) ++ ([] : List Char))) := by
      rw [hstrip]
      simp [authorityChars, List.append_assoc]
    rw [parseURL_build hcp hs_toList (Or.inl rfl)]
    show some (⟨(normalizedRec r).scheme, (normalizedRec r).host,
      (normalizedRec r).port, "/", [], none⟩ : URLRec) = some (normalizedRec r)
    rw [URLRec_eta_root _ hcond.1 hparams hf5]
  · rw [if_neg hcond] at hout
    rw [hout]
    exact parse_serializeURL hcp

/-! ### C10: idempotence of `normalizeUrl` -/

/-- C10: on every URL the model parser accepts, `normalizeUrl` is
idempotent: normalizing an already-normalized URL returns it unchanged. -/
theorem normalizeUrl_idempotent :
    ∀ u s : String, normalizeUrl u = some s → normalizeUrl s = some s := by
  intro u s h
  obtain ⟨r, _, hparse2, hfix, hout⟩ := normalizeUrl_main h
  unfold normalizeUrl
  rw [hparse2]
  simp only [Option.map_some']
  rw [hfix, ← hout]

/-- Witness for C10: idempotence applied to a concrete normalization. -/
theorem normalizeUrl_idempotent_witness :
    normalizeUrl "https://example.com/path?a=1&b=2" =
      some "https://example.com/path?a=1&b=2" :=
  normalizeUrl_idempotent "HTTPS://Example.COM:443/path?b=2&a=1#frag"
    "https://example.com/path?a=1&b=2" (by decide)

/-! ### C9: the normalization rules -/

/-- The spec's description of the normalizer, applied to a parsed URL
record: lowercase the scheme and host, strip the fragment, strip the
scheme's default port, sort the query pairs by key, and strip a lone
trailing slash only when the path is exactly `/` and there is no query. -/
def specNormalize (r : URLRec) : String :=
  let r1 : URLRec := { r with scheme := lowerStr r.scheme, host := lowerStr r.host }
  let r2 : URLRec := { r1 with hash := none }
  let r3 : URLRec :=
    if r2.port = DEFAULT_PORTS (r2.scheme ++ ":") then { r2 with port := none } else r2
  let r4 : URLRec := { r3 with params := sortParams r3.params }
  let out := serializeURL r4
  if r4.pathname = "/" ∧ r4.params.isEmpty then stripTrailingSlash out else out

/-- C9: `normalizeUrl` performs exactly the spec's normalization on every
URL the model parser accepts, and produces the spec's three concrete
examples. -/
theorem normalizeUrl_matches_spec :
    (∀ u r, parseURL u = some r → normalizeUrl u = some (specNormalize r)) ∧
    normalizeUrl "HTTPS://Example.COM:443/path?b=2&a=1#frag" =
      some "https://example.com/path?a=1&b=2" ∧
    normalizeUrl "https://example.com/" = some "https://example.com" ∧
    normalizeUrl "https://example.com/blog/" = some "https://example.com/blog/" := by
  refine ⟨?_, by decide, by decide, by decide⟩
  intro u r hparse
  have hc := parseURL_canonical hparse
  have hsch : lowerStr r.scheme = r.scheme := by
    rcases hc.scheme_ok with h | h <;> rw [h] <;> decide
  have hhost : lowerStr r.host = r.host :=
    lowerStr_id (fun c hcm => lowerChar_fixed (hc.host_chars c hcm).2)
  unfold normalizeUrl
  rw [hparse]
  simp only [Option.map_some', Option.some.injEq]
  unfold specNormalize normalizedRec
  rw [hsch, hhost]

/-- Witness for C9: the general rule instantiated at a concrete URL. -/
theorem normalizeUrl_matches_spec_witness :
    ∃ r, parseURL "http://example.com:8080/a?y=2&x=1#f" = some r ∧
      normalizeUrl "http://example.com:8080/a?y=2&x=1#f" = some (specNormalize r) := by
  refine ⟨⟨"http", "example.com", some "8080", "/a", [("y", "2"), ("x", "1")], some "f"⟩,
    by decide, ?_⟩
  exact normalizeUrl_matches_spec.1 "http://example.com:8080/a?y=2&x=1#f" _ (by decide)

/-! ## Link filtering (`src/crawler/link-resolver.ts`) -/

/-- Glob matching as the source's pattern-to-regex construction denotes:
`*` matches any run of characters (the escaped remainder is literal), the
match is anchored at both ends, and case-insensitivity is modelled by
lowercasing both sides (the `i` regex flag). -/
def globMatch : List Char → List Char → Bool
  | [], cs => cs.isEmpty
  | '*' :: ps, cs =>
    globMatch ps cs ||
      (match cs with
       | [] => false
       | _ :: cs2 => globMatch ('*' :: ps) cs2)
  | _ :: _, [] => false
  | p :: ps, c :: cs => (p == c) && globMatch ps cs
termination_by p c => c.length + p.length
decreasing_by all_goals simp_wf <;> omega

/-- `matchesPattern`: anchored case-insensitive glob test of a URL. -/
def matchesPattern (url pattern : String) : Bool :=
  globMatch (lowerStr pattern).toList (lowerStr url).toList

/-- The `filter` option of `LinkFilterOptions`. -/
inductive FilterMode where
  | internal
  | external
  | all
deriving DecidableEq, Repr

/-- `LinkFilterOptions`, with `none` modelling an absent optional field. -/
structure LinkFilterOptions where
  allowedDomains : Option (List String)
  excludePatterns : Option (List String)
  includePatterns : Option (List String)
  filter : Option FilterMode
deriving Repr

/-- A resolved link as produced by `extractLinks`. -/
structure ResolvedLink where
  text : String
  url : String
  isInternal : Bool
deriving DecidableEq, Repr

/-- The filter predicate of `filterLinks`, applied to one link in the
source's order: internal/external test, allowed-domain whitelist
(case-insensitive), include globs (must match one), exclude globs (drop
on any match).  `none` models the exception `extractDomain` throws on an
unparseable link URL inside the allowed-domains branch. -/
def linkPasses (o : LinkFilterOptions) (link : ResolvedLink) : Option Bool :=
  if o.filter = some FilterMode.internal ∧ link.isInternal = false then some false
  else if o.filter = some FilterMode.external ∧ link.isInternal = true then some false
  else
    let domainsOk : Option Bool :=
      match o.allowedDomains with
      | some ds =>
        if ds.isEmpty then some true
        else
          match extractDomain link.url with
          | none => none
          | some linkDomain =>
            some (ds.any fun d => lowerStr d == lowerStr linkDomain)
      | none => some true
    match domainsOk with
    | none => none
    | some false => some false
    | some true =>
      let includeOk : Bool :=
        match o.includePatterns with
        | some ps2 =>
          if ps2.isEmpty then true else ps2.any fun p => matchesPattern link.url p
        | none => true
      if includeOk = false then some false
      else
        let excludeHit : Bool :=
          match o.excludePatterns with
          | some ps2 =>
            if ps2.isEmpty then false else ps2.any fun p => matchesPattern link.url p
          | none => false
        if excludeHit = true then some false else some true

/-- `filterLinks`: `links.filter(...)` with the predicate above (the
`baseDomain` parameter is accepted and unused, as in the source). -/
def filterLinks (links : List ResolvedLink) (baseDomain : String)
    (o : LinkFilterOptions) : Option (List ResolvedLink) :=
  match links with
  | [] => some []
  | l :: ls =>
    match linkPasses o l, filterLinks ls baseDomain o with
    | some b, some rest => some (if b then l :: rest else rest)
    | _, _ => none

lemma linkPasses_true_exclude {o : LinkFilterOptions} {l : ResolvedLink}
    {eps : List String} {p : String} (ho : o.excludePatterns = some eps)
    (hp : p ∈ eps) (h : linkPasses o l = some true) :
    matchesPattern l.url p = false := by
  simp only [linkPasses] at h
  split at h
  · cases h
  · split at h
    · cases h
    · split at h
      · cases h
      · cases h
      · split at h
        · cases h
        · split at h
          · cases h
          · next hex =>
            rw [ho] at hex
            have hne : ¬eps.isEmpty = true := by
              intro habs
              rw [List.isEmpty_iff] at habs
              rw [habs] at hp
              cases hp
            simp only [hne, Bool.false_eq_true, if_false] at hex
            have := eq_false_of_ne_true hex
            rw [List.any_eq_false] at this
            exact eq_false_of_ne_true (this p hp)

/-! ### C7: exclude patterns always win -/

/-- C7: a link whose URL matches any exclude glob never survives
`filterLinks`, whatever the other options (in particular even when it also
matches an include glob); concretely, a link matching both
`*/admin/*` (exclude) and `*/blog/*` (include) is dropped. -/
theorem filterLinks_exclude_wins :
    (∀ (links : List ResolvedLink) (baseDomain : String) (o : LinkFilterOptions)
      (out : List ResolvedLink) (eps : List String) (l : ResolvedLink) (p : String),
      o.excludePatterns = some eps → p ∈ eps →
      filterLinks links baseDomain o = some out → l ∈ out →
      matchesPattern l.url p = false) ∧
    matchesPattern "https://example.com/blog/admin/x" "*/admin/*" = true ∧
    matchesPattern "https://example.com/blog/admin/x" "*/blog/*" = true ∧
    filterLinks [⟨"both", "https://example.com/blog/admin/x", true⟩] "example.com"
      ⟨none, some ["*/admin/*"], some ["*/blog/*"], none⟩ = some [] := by
  refine ⟨?_, ?_, ?_, ?_⟩
  · intro links
    induction links with
    | nil =>
      intro baseDomain o out eps l p ho hp hfl hl
      simp only [filterLinks, Option.some.injEq] at hfl
      rw [← hfl] at hl
      cases hl
    | cons a ls ih =>
      intro baseDomain o out eps l p ho hp hfl hl
      simp only [filterLinks] at hfl
      split at hfl
      · next b rest hpass hrest =>
        rw [Option.some.injEq] at hfl
        subst hfl
        cases b with
        | true =>
          rcases List.mem_cons.mp (by simpa using hl) with rfl | hl2
          · exact linkPasses_true_exclude ho hp hpass
          · exact ih baseDomain o rest eps l p ho hp hrest hl2
        | false =>
          exact ih baseDomain o rest eps l p ho hp hrest (by simpa using hl)
      · cases hfl
  · simp [matchesPattern, lowerStr, lowerChar, globMatch]
  · simp [matchesPattern, lowerStr, lowerChar, globMatch]
  · simp only [filterLinks, linkPasses]
    norm_num
    simp [matchesPattern, lowerStr, lowerChar, globMatch]

/-- Witness for C7: the general statement applied to a concrete filter
run whose output contains one link. -/
theorem filterLinks_exclude_wins_witness :
    matchesPattern "https://example.com/page" "*/admin/*" = false := by
  have hfl : filterLinks [⟨"ok", "https://example.com/page", true⟩] "example.com"
      ⟨none, some ["*/admin/*"], none, none⟩ =
      some [⟨"ok", "https://example.com/page", true⟩] := by
    simp only [filterLinks, linkPasses]
    norm_num
    simp [matchesPattern, lowerStr, lowerChar, globMatch]
  exact filterLinks_exclude_wins.1 _ "example.com" _ _ ["*/admin/*"]
    ⟨"ok", "https://example.com/page", true⟩ "*/admin/*" rfl (by simp) hfl (by simp)

/-! ## The BFS crawl engine (`src/crawler/bfs-crawler.ts`) -/

/-- The fields of the extraction pipeline's `PageResult` that the crawl
loop reads.  (The pipeline's interface also declares `url`, which the loop
never reads — it uses the queue entry's URL.)  The loop additionally reads
`pageResult.html`, which the interface does not declare, so at runtime it
is `undefined` (falsy) unless a pipeline implementation supplies it;
modelled as an `Option`. -/
structure PageResult where
  title : String
  content : String
  html : Option String
deriving DecidableEq, Repr

/-- The asynchronous collaborators of `crawl`, passed in explicitly:
`extractPage` is the fetch-and-extract pipeline (`Except.error` models a
thrown exception), `extractLinks html pageUrl` the cheerio link
extraction. -/
structure CrawlEnv where
  extractPage : String → Except Unit PageResult
  extractLinks : String → String → List ResolvedLink

/-- `CrawlOptions`, with `none` modelling an absent optional field. -/
structure CrawlOptions where
  maxTokens : Option Nat
  allowedDomains : Option (List String)
  excludePatterns : Option (List String)
  includePatterns : Option (List String)

/-- `config.defaultMaxTokens` with the environment variable
`DEFAULT_MAX_TOKENS` unset. -/
def defaultMaxTokens : Nat := 100000

/-- The `stopped_reason` values of `CrawlResult["summary"]`. -/
inductive StopReason where
  | token_limit
  | no_more_links
  | all_visited
deriving DecidableEq, Repr

/-- One element of `CrawlResult.pages`. -/
structure CrawlPageResult where
  url : String
  title : String
  content : String
  depth : Nat
  links_found : Nat
  tokens : Nat
deriving DecidableEq, Repr

/-- `CrawlResult.summary`. -/
structure CrawlSummary where
  total_pages : Nat
  total_tokens : Nat
  max_depth_reached : Nat
  stopped_reason : StopReason
deriving DecidableEq, Repr

/-- The structured result `crawl` resolves with. -/
structure CrawlResult where
  pages : List CrawlPageResult
  summary : CrawlSummary
deriving DecidableEq, Repr

/-- One BFS queue entry. -/
structure QueueEntry where
  url : String
  depth : Nat
deriving DecidableEq, Repr

/-- The mutable state of the BFS main loop: the FIFO `queue`, the
`visited` set (as its insertion-ordered list of distinct URLs), the
`pages` accumulator, and the `totalTokens` / `maxDepthReached`
counters. -/
structure CrawlSt where
  queue : List QueueEntry
  visited : List String
  pages : List CrawlPageResult
  totalTokens : Nat
  maxDepthReached : Nat
deriving DecidableEq, Repr

/-- The post-loop stop-reason computation, for an exit that did not
`break`: `stoppedReason` stays at its initial `"no_more_links"` unless
pages were visited and the queue drained, in which case it becomes
`"no_more_links"` when some visited URL produced no page (a failed fetch)
and `"all_visited"` otherwise. -/
def finishReason (st : CrawlSt) : StopReason :=
  if 0 < st.visited.length ∧ st.queue.length = 0 then
    if st.pages.length < st.visited.length then .no_more_links else .all_visited
  else .no_more_links

/-- The BFS main loop (`while (queue.length > 0)` of `crawl`), with fuel;
one unit of fuel is one loop iteration.  `none` is fuel exhaustion,
`some (.error ())` an exception escaping the loop (`filterLinks` can throw
out of the loop's try/catch, which guards only `extractPage`).  The loop
body in source order: dequeue; skip if visited; mark visited *before*
fetching; update `maxDepthReached` *before* fetching; fetch (a caught
failure `continue`s); estimate tokens; append the page (with
`links_found := 0`); stop with `token_limit` when the running total
reaches `maxTokens`; otherwise, when raw HTML is present, extract links,
filter them, enqueue the unvisited ones one level deeper and set the
appended page's `links_found` to the number of *extracted* links. -/
def crawlGo (env : CrawlEnv) (maxTokens : Nat) (startDomain : String)
    (fopts : LinkFilterOptions) : Nat → CrawlSt → Option (Except Unit CrawlResult)
  | 0, _ => none
  | fuel + 1, st =>
    match st.queue with
    | [] =>
      some (.ok ⟨st.pages,
        ⟨st.pages.length, st.totalTokens, st.maxDepthReached, finishReason st⟩⟩)
    | entry :: rest =>
      if st.visited.contains entry.url then
        crawlGo env maxTokens startDomain fopts fuel { st with queue := rest }
      else
        let visited2 := st.visited ++ [entry.url]
        let maxd := max st.maxDepthReached entry.depth
        match env.extractPage entry.url with
        | .error _ =>
          crawlGo env maxTokens startDomain fopts fuel
            ⟨rest, visited2, st.pages, st.totalTokens, maxd⟩
        | .ok pageResult =>
          let pageTokens := estimateTokens pageResult.content
          let total2 := st.totalTokens + pageTokens
          if maxTokens ≤ total2 then
            some (.ok ⟨st.pages ++
                [⟨entry.url, pageResult.title, pageResult.content,
                  entry.depth, 0, pageTokens⟩],
              ⟨st.pages.length + 1, total2, maxd, .token_limit⟩⟩)
          else
            match pageResult.html with
            | none =>
              crawlGo env maxTokens startDomain fopts fuel
                ⟨rest, visited2,
                  st.pages ++
                    [⟨entry.url, pageResult.title, pageResult.content,
                      entry.depth, 0, pageTokens⟩],
                  total2, maxd⟩
            | some html =>
              let allLinks := env.extractLinks html entry.url
              match filterLinks allLinks startDomain fopts with
              | none => some (.error ())
              | some filteredLinks =>
                crawlGo env maxTokens startDomain fopts fuel
                  ⟨rest ++
                      (filteredLinks.filter fun l =>
                        !(visited2.contains l.url)).map
                        (fun l => ⟨l.url, entry.depth + 1⟩),
                    visited2,
                    st.pages ++
                      [⟨entry.url, pageResult.title, pageResult.content,
                        entry.depth, allLinks.length, pageTokens⟩],
                    total2, maxd⟩

/-- `crawl(startUrl, options)`: resolve the options against the defaults,
build the link-filter options (`filter: "all"`), normalize the start URL
and extract its domain (either step throwing on a malformed URL is
`some (.error ())`), then run the BFS loop from a queue holding the
normalized start at depth 0. -/
def crawl (startUrl : String) (options : Option CrawlOptions) (env : CrawlEnv)
    (fuel : Nat) : Option (Except Unit CrawlResult) :=
  let maxTokens := (options.bind CrawlOptions.maxTokens).getD defaultMaxTokens
  let linkFilterOptions : LinkFilterOptions :=
    ⟨options.bind CrawlOptions.allowedDomains,
      options.bind CrawlOptions.excludePatterns,
      options.bind CrawlOptions.includePatterns,
      some FilterMode.all⟩
  match normalizeUrl startUrl with
  | none => some (.error ())
  | some normalizedStart =>
    match extractDomain normalizedStart with
    | none => some (.error ())
    | some startDomain =>
      crawlGo env maxTokens startDomain linkFilterOptions fuel
        ⟨[⟨normalizedStart, 0⟩], [], [], 0, 0⟩

/-- The summed token estimate of a page list. -/
def sumTokens (ps : List CrawlPageResult) : Nat :=
  (ps.map CrawlPageResult.tokens).sum

/-- The maximum `depth` over a page list, `0` when empty. -/
def pagesMaxDepth (ps : List CrawlPageResult) : Nat :=
  ps.foldr (fun p m => max p.depth m) 0

deriving instance DecidableEq for Except

lemma sumTokens_append (ps : List CrawlPageResult) (pg : CrawlPageResult) :
    sumTokens (ps ++ [pg]) = sumTokens ps + pg.tokens := by
  simp [sumTokens]

lemma finishReason_ne_token_limit (st : CrawlSt) :
    finishReason st ≠ StopReason.token_limit := by
  unfold finishReason
  split
  · split <;> simp
  · simp

set_option maxHeartbeats 1000000 in
/-- The budget invariant of the BFS loop: starting from a state whose
running total is the sum of its pages' tokens and is under budget unless
no page has been kept yet, a `token_limit` stop has crossed the budget
with only its last page, and any other normal stop is strictly under
budget. -/
lemma crawlGo_budget (env : CrawlEnv) (mt : Nat) (sd : String)
    (fo : LinkFilterOptions) (hmt : 0 < mt) :
    ∀ fuel st r, st.totalTokens = sumTokens st.pages →
      (st.pages ≠ [] → st.totalTokens < mt) →
      crawlGo env mt sd fo fuel st = some (Except.ok r) →
      r.summary.total_tokens = sumTokens r.pages ∧
      r.summary.total_pages = r.pages.length ∧
      (r.summary.stopped_reason = StopReason.token_limit →
        r.pages ≠ [] ∧ mt ≤ r.summary.total_tokens ∧
        sumTokens r.pages.dropLast < mt) ∧
      (r.summary.stopped_reason ≠ StopReason.token_limit →
        r.summary.total_tokens < mt) := by
  intro fuel
  induction fuel with
  | zero => intro st r _ _ hrun; simp [crawlGo] at hrun
  | succ fuel ih =>
    intro st r h1 h2 hrun
    obtain ⟨q, v, ps, tt, md⟩ := st
    simp only at h1 h2
    cases q with
    | nil =>
      simp only [crawlGo] at hrun
      simp only [Option.some.injEq, Except.ok.injEq] at hrun
      subst hrun
      refine ⟨h1, rfl, ?_, ?_⟩
      · intro h
        exact absurd h (finishReason_ne_token_limit _)
      · intro _
        show tt < mt
        by_cases hps : ps = []
        · subst hps
          simp [sumTokens] at h1
          omega
        · exact h2 hps
    | cons entry rest =>
      simp only [crawlGo] at hrun
      split at hrun
      · exact ih ⟨rest, v, ps, tt, md⟩ r h1 h2 hrun
      · split at hrun
        · exact ih ⟨rest, v ++ [entry.url], ps, tt, md ⊔ entry.depth⟩ r h1 h2 hrun
        · rename_i pageResult hpage
          split at hrun
          · rename_i hle
            simp only [Option.some.injEq, Except.ok.injEq] at hrun
            subst hrun
            refine ⟨?_, by simp, ?_, ?_⟩
            · show tt + estimateTokens pageResult.content = _
              rw [sumTokens_append, ← h1]
            · intro _
              refine ⟨by simp, hle, ?_⟩
              show sumTokens (ps ++ [_]).dropLast < mt
              rw [List.dropLast_concat, ← h1]
              by_cases hps : ps = []
              · subst hps
                simp [sumTokens] at h1
                omega
              · exact h2 hps
            · intro hne
              exact absurd rfl hne
          · rename_i hlt
            split at hrun
            · refine ih ⟨rest, v ++ [entry.url], ps ++ [_], tt + _, md ⊔ entry.depth⟩
                r ?_ ?_ hrun
              · show tt + estimateTokens pageResult.content = _
                rw [sumTokens_append, ← h1]
              · intro _
                show tt + estimateTokens pageResult.content < mt
                omega
            · rename_i html hhtml
              split at hrun
              · simp at hrun
              · rename_i filteredLinks hfl
                refine ih _ r ?_ ?_ hrun
                · show tt + estimateTokens pageResult.content = _
                  rw [sumTokens_append, ← h1]
                · intro _
                  show tt + estimateTokens pageResult.content < mt
                  omega

/-- The estimate of an `n`-character all-ASCII page body: no CJK
characters, so the divisor is 4. -/
lemma estimateTokens_replicate_a (n : Nat) (hn : n ≠ 0) :
    estimateTokens (String.mk (List.replicate n 'a')) = max 1 ((n + 3) / 4) := by
  have htl : (String.mk (List.replicate n 'a')).toList = List.replicate n 'a' := rfl
  have hcjk : countCjkCharacters (String.mk (List.replicate n 'a')) = 0 := by
    rw [countCjkCharacters, htl]
    exact List.countP_eq_zero.mpr fun c hc => by
      rw [List.eq_of_mem_replicate hc]; decide
  have hlen : jsLength (String.mk (List.replicate n 'a')) = n := by
    rw [jsLength, htl, List.map_replicate]
    rw [show utf16Len 'a' = 1 from rfl, List.sum_replicate]
    simp
  have hne : (String.mk (List.replicate n 'a')).toList.isEmpty = false := by
    rw [htl]
    cases n with
    | zero => exact absurd rfl hn
    | succ m => rfl
  have hdet : detectCharsPerToken (String.mk (List.replicate n 'a')) = 4 := by
    rw [detectCharsPerToken]
    simp only [hcjk, if_pos rfl]
    rfl
  rw [estimateTokens, hne]
  simp only [Bool.false_eq_true, if_false, hdet, hlen, estimate_ceil_four]

/-- A 2000-character ASCII page body; `estimateTokens` puts it at
`⌈2000 / 4⌉ = 500` tokens. -/
def seedContent500 : String := String.mk (List.replicate 2000 'a')

/-- A crawl environment in which every fetch succeeds with the 500-token
page and no raw HTML. -/
def seedEnv500 : CrawlEnv :=
  ⟨fun _ => .ok ⟨"Seed", seedContent500, none⟩, fun _ _ => []⟩

/-- What the `maxTokens := 1` crawl of `seedEnv500` returns: the one
budget-crossing seed page, kept in full. -/
def seed500Result : CrawlResult :=
  ⟨[⟨"https://example.com", "Seed", seedContent500, 0, 0, 500⟩],
    ⟨1, 500, 0, .token_limit⟩⟩

/-- `seedContent500` estimates at 500 tokens. -/
lemma seedContent500_estimate : estimateTokens seedContent500 = 500 := by
  rw [seedContent500, estimateTokens_replicate_a 2000 (by decide)]
  decide

/-- One symbolic step of the BFS loop: a fresh queue whose head page
fetches successfully and alone meets the budget stops immediately with
`token_limit`, keeping that page in full. -/
lemma crawlGo_seed_break (env : CrawlEnv) (mt : Nat) (sd : String)
    (fo : LinkFilterOptions) (fuel : Nat) (u : String) (pr : PageResult)
    (hp : env.extractPage u = Except.ok pr)
    (hmt : mt ≤ estimateTokens pr.content) :
    crawlGo env mt sd fo (fuel + 1) ⟨[⟨u, 0⟩], [], [], 0, 0⟩ =
      some (Except.ok
        ⟨[⟨u, pr.title, pr.content, 0, 0, estimateTokens pr.content⟩],
          ⟨1, estimateTokens pr.content, 0, .token_limit⟩⟩) := by
  simp only [crawlGo, List.contains, hp]
  rw [if_neg (by simp), if_pos (by simpa using hmt)]
  simp

/-- **C4.** The token budget is checked after the page is appended: in
every crawl with a positive token budget, the total is the sum of the
returned pages' estimates, the budget has been met or exceeded exactly
when the crawl stopped with `token_limit`, and at a `token_limit` stop
the pages without their last one were still under budget (the crossing
page is kept).  In particular a `maxTokens := 1` crawl whose seed page
estimates at 500 tokens returns exactly one page, that page in full, and
`stopped_reason` `token_limit`. -/
theorem crawl_token_budget :
    (∀ startUrl opts env fuel r,
      0 < (opts.bind CrawlOptions.maxTokens).getD defaultMaxTokens →
      crawl startUrl opts env fuel = some (Except.ok r) →
      r.summary.total_tokens = sumTokens r.pages ∧
      ((opts.bind CrawlOptions.maxTokens).getD defaultMaxTokens ≤
          r.summary.total_tokens ↔
        r.summary.stopped_reason = StopReason.token_limit) ∧
      (r.summary.stopped_reason = StopReason.token_limit →
        r.pages ≠ [] ∧
        sumTokens r.pages.dropLast <
          (opts.bind CrawlOptions.maxTokens).getD defaultMaxTokens)) ∧
    estimateTokens seedContent500 = 500 ∧
    crawl "https://example.com" (some ⟨some 1, none, none, none⟩) seedEnv500 5 =
      some (Except.ok seed500Result) ∧
    seed500Result.pages.length = 1 ∧
    seed500Result.summary.stopped_reason = StopReason.token_limit := by
  have hconc : crawl "https://example.com" (some ⟨some 1, none, none, none⟩)
      seedEnv500 5 = some (Except.ok seed500Result) := by
    have h1 : crawl "https://example.com" (some ⟨some 1, none, none, none⟩)
        seedEnv500 5 =
        crawlGo seedEnv500 1 "example.com" ⟨none, none, none, some FilterMode.all⟩
          (4 + 1) ⟨[⟨"https://example.com", 0⟩], [], [], 0, 0⟩ := rfl
    rw [h1, crawlGo_seed_break seedEnv500 1 "example.com" _ 4 _
      ⟨"Seed", seedContent500, none⟩ rfl
      (by rw [show (⟨"Seed", seedContent500, none⟩ : PageResult).content =
          seedContent500 from rfl, seedContent500_estimate]; omega)]
    rw [seed500Result, seedContent500_estimate]
  refine ⟨?_, seedContent500_estimate, hconc, rfl, rfl⟩
  intro startUrl opts env fuel r hmt hrun
  unfold crawl at hrun
  split at hrun
  · simp at hrun
  · split at hrun
    · simp at hrun
    · have key := crawlGo_budget env
        ((opts.bind CrawlOptions.maxTokens).getD defaultMaxTokens) _ _ hmt fuel
        ⟨[⟨_, 0⟩], [], [], 0, 0⟩ r rfl (fun h => absurd rfl h) hrun
      obtain ⟨e1, _, e3, e4⟩ := key
      refine ⟨e1, ⟨?_, fun h => (e3 h).2.1⟩, fun h => ⟨(e3 h).1, (e3 h).2.2⟩⟩
      intro hle
      by_contra hne
      exact absurd hle (Nat.not_le.mpr (e4 hne))

lemma pagesMaxDepth_append (ps : List CrawlPageResult) (pg : CrawlPageResult) :
    pagesMaxDepth (ps ++ [pg]) = max (pagesMaxDepth ps) pg.depth := by
  induction ps with
  | nil => simp [pagesMaxDepth]
  | cons a as ih =>
    simp only [pagesMaxDepth, List.cons_append, List.foldr_cons] at ih ⊢
    rw [ih]
    omega

/-- The upper-bound invariant of the depth tracker: `maxDepthReached`
bounds every kept page's depth, whether or not fetches fail. -/
lemma crawlGo_depth_ub (env : CrawlEnv) (mt : Nat) (sd : String)
    (fo : LinkFilterOptions) :
    ∀ fuel st r, pagesMaxDepth st.pages ≤ st.maxDepthReached →
      crawlGo env mt sd fo fuel st = some (Except.ok r) →
      pagesMaxDepth r.pages ≤ r.summary.max_depth_reached := by
  intro fuel
  induction fuel with
  | zero => intro st r _ hrun; simp [crawlGo] at hrun
  | succ fuel ih =>
    intro st r h1 hrun
    obtain ⟨q, v, ps, tt, md⟩ := st
    simp only at h1
    cases q with
    | nil =>
      simp only [crawlGo] at hrun
      simp only [Option.some.injEq, Except.ok.injEq] at hrun
      subst hrun
      exact h1
    | cons entry rest =>
      simp only [crawlGo] at hrun
      split at hrun
      · exact ih ⟨rest, v, ps, tt, md⟩ r h1 hrun
      · split at hrun
        · refine ih ⟨rest, v ++ [entry.url], ps, tt, md ⊔ entry.depth⟩ r ?_ hrun
          exact le_trans h1 le_sup_left
        · rename_i pageResult hpage
          split at hrun
          · simp only [Option.some.injEq, Except.ok.injEq] at hrun
            subst hrun
            show pagesMaxDepth (ps ++ [_]) ≤ md ⊔ entry.depth
            rw [pagesMaxDepth_append]
            exact max_le_max h1 le_rfl
          · split at hrun
            · refine ih ⟨rest, v ++ [entry.url], ps ++ [_], tt + _,
                md ⊔ entry.depth⟩ r ?_ hrun
              show pagesMaxDepth (ps ++ [_]) ≤ md ⊔ entry.depth
              rw [pagesMaxDepth_append]
              exact max_le_max h1 le_rfl
            · split at hrun
              · simp at hrun
              · refine ih _ r ?_ hrun
                show pagesMaxDepth (ps ++ [_]) ≤ md ⊔ entry.depth
                rw [pagesMaxDepth_append]
                exact max_le_max h1 le_rfl

/-- When every fetch succeeds, the depth tracker equals the maximum kept
depth exactly: every dequeued unvisited URL contributes both to
`maxDepthReached` and (as a successfully fetched page) to `pages`. -/
lemma crawlGo_depth_eq (env : CrawlEnv) (mt : Nat) (sd : String)
    (fo : LinkFilterOptions)
    (hok : ∀ u, ∃ pr, env.extractPage u = Except.ok pr) :
    ∀ fuel st r, pagesMaxDepth st.pages = st.maxDepthReached →
      crawlGo env mt sd fo fuel st = some (Except.ok r) →
      r.summary.max_depth_reached = pagesMaxDepth r.pages := by
  intro fuel
  induction fuel with
  | zero => intro st r _ hrun; simp [crawlGo] at hrun
  | succ fuel ih =>
    intro st r h1 hrun
    obtain ⟨q, v, ps, tt, md⟩ := st
    simp only at h1
    cases q with
    | nil =>
      simp only [crawlGo] at hrun
      simp only [Option.some.injEq, Except.ok.injEq] at hrun
      subst hrun
      exact h1.symm
    | cons entry rest =>
      simp only [crawlGo] at hrun
      split at hrun
      · exact ih ⟨rest, v, ps, tt, md⟩ r h1 hrun
      · split at hrun
        · rename_i a heq
          obtain ⟨pr, hpr⟩ := hok entry.url
          rw [hpr] at heq
          exact absurd heq (by simp)
        · rename_i pageResult hpage
          split at hrun
          · simp only [Option.some.injEq, Except.ok.injEq] at hrun
            subst hrun
            show md ⊔ entry.depth = pagesMaxDepth (ps ++ [_])
            rw [pagesMaxDepth_append, h1]
          · split at hrun
            · refine ih ⟨rest, v ++ [entry.url], ps ++ [_], tt + _,
                md ⊔ entry.depth⟩ r ?_ hrun
              show pagesMaxDepth (ps ++ [_]) = md ⊔ entry.depth
              rw [pagesMaxDepth_append, h1]
            · split at hrun
              · simp at hrun
              · refine ih _ r ?_ hrun
                show pagesMaxDepth (ps ++ [_]) = md ⊔ entry.depth
                rw [pagesMaxDepth_append, h1]

/-- A crawl environment in which the seed page succeeds and advertises one
link, and every other fetch throws (a 404). -/
def depthEnv : CrawlEnv :=
  ⟨fun u =>
      if u = "https://example.com" then .ok ⟨"Seed", "hello", some "<html>"⟩
      else .error (),
    fun _ _ => [⟨"next", "https://example.com/next", true⟩]⟩

/-- What crawling `depthEnv` returns: the failed fetch of the depth-1 link
has already pushed `max_depth_reached` to 1, but the only kept page has
depth 0. -/
def depthResult : CrawlResult :=
  ⟨[⟨"https://example.com", "Seed", "hello", 0, 1, 2⟩],
    ⟨1, 2, 1, .no_more_links⟩⟩

set_option maxRecDepth 1000000 in
/-- **C6, counterexample.**  `max_depth_reached` does not equal the
maximum kept-page depth: `crawl` updates the tracker when a URL is
*dequeued*, before fetching it, so a failed fetch at a new depth raises
`max_depth_reached` without contributing a page.  Crawling `depthEnv`
keeps only the depth-0 seed page yet reports `max_depth_reached = 1`. -/
theorem crawl_max_depth_counterexample :
    crawl "https://example.com" none depthEnv 3 = some (Except.ok depthResult) ∧
    depthResult.summary.max_depth_reached = 1 ∧
    pagesMaxDepth depthResult.pages = 0 ∧
    depthResult.pages ≠ [] := by
  refine ⟨by decide, rfl, rfl, by decide⟩

/-- **C6, amended.**  In every crawl, `max_depth_reached` is an *upper
bound* on the depths of the returned pages; it equals the maximum page
depth (`0` when `pages` is empty) whenever every fetch succeeds, and can
exceed it when a fetch at a new depth fails. -/
theorem crawl_max_depth_amended :
    (∀ startUrl opts env fuel r,
      crawl startUrl opts env fuel = some (Except.ok r) →
      pagesMaxDepth r.pages ≤ r.summary.max_depth_reached) ∧
    (∀ startUrl opts env fuel r,
      (∀ u, ∃ pr, env.extractPage u = Except.ok pr) →
      crawl startUrl opts env fuel = some (Except.ok r) →
      r.summary.max_depth_reached = pagesMaxDepth r.pages ∧
      (r.pages = [] → r.summary.max_depth_reached = 0)) := by
  constructor
  · intro startUrl opts env fuel r hrun
    unfold crawl at hrun
    split at hrun
    · simp at hrun
    · split at hrun
      · simp at hrun
      · exact crawlGo_depth_ub env _ _ _ fuel
          ⟨[⟨_, 0⟩], [], [], 0, 0⟩ r (by simp [pagesMaxDepth]) hrun
  · intro startUrl opts env fuel r hok hrun
    unfold crawl at hrun
    split at hrun
    · simp at hrun
    · split at hrun
      · simp at hrun
      · have he := crawlGo_depth_eq env _ _ _ hok fuel
          ⟨[⟨_, 0⟩], [], [], 0, 0⟩ r (by simp [pagesMaxDepth]) hrun
        exact ⟨he, fun hp => by rw [he, hp]; rfl⟩

/-- `linkPasses` only throws (returns `none`) when `extractDomain` throws
on the link's URL; a link whose URL parses always gets a verdict. -/
lemma linkPasses_isSome {o : LinkFilterOptions} {l : ResolvedLink}
    (h : (parseURL l.url).isSome = true) :
    (linkPasses o l).isSome = true := by
  obtain ⟨pr, hpr⟩ := Option.isSome_iff_exists.mp h
  have hd : extractDomain l.url = some pr.host := by
    simp [extractDomain, hpr]
  rcases had : o.allowedDomains with _ | ds
  · simp only [linkPasses, hd, had]
    repeat' split
    all_goals simp_all
  · rcases hde : ds.isEmpty
    · rcases hany : ds.any fun dd => lowerStr dd == lowerStr pr.host
      · simp only [linkPasses, hd, had, hde, hany]
        repeat' split
        all_goals simp_all
      · simp only [linkPasses, hd, had, hde, hany]
        repeat' split
        all_goals simp_all
    · simp only [linkPasses, hd, had, hde]
      repeat' split
      all_goals simp_all

/-- `filterLinks` does not throw when every link URL parses. -/
lemma filterLinks_isSome {links : List ResolvedLink} {d : String}
    {o : LinkFilterOptions}
    (h : ∀ l ∈ links, (parseURL l.url).isSome = true) :
    (filterLinks links d o).isSome = true := by
  induction links with
  | nil => rfl
  | cons a as ih =>
    have ha := @linkPasses_isSome o a (h a (by simp))
    have has := ih (fun l hl => h l (by simp [hl]))
    obtain ⟨b, hb⟩ := Option.isSome_iff_exists.mp ha
    obtain ⟨out, hout⟩ := Option.isSome_iff_exists.mp has
    simp [filterLinks, hb, hout]

/-- The BFS loop never escapes with an exception when every extracted
link's URL parses (cheerio's link extraction resolves every `href`
through `new URL`, so in the real pipeline they always do): individual
fetch failures are caught and `continue`d past. -/
lemma crawlGo_no_error (env : CrawlEnv) (mt : Nat) (sd : String)
    (fo : LinkFilterOptions)
    (hl : ∀ html base, ∀ l ∈ env.extractLinks html base,
      (parseURL l.url).isSome = true) :
    ∀ fuel st x, crawlGo env mt sd fo fuel st = some x →
      ∃ r, x = Except.ok r := by
  intro fuel
  induction fuel with
  | zero => intro st x hrun; simp [crawlGo] at hrun
  | succ fuel ih =>
    intro st x hrun
    obtain ⟨q, v, ps, tt, md⟩ := st
    cases q with
    | nil =>
      simp only [crawlGo, Option.some.injEq] at hrun
      exact ⟨_, hrun.symm⟩
    | cons entry rest =>
      simp only [crawlGo] at hrun
      split at hrun
      · exact ih _ _ hrun
      · split at hrun
        · exact ih _ _ hrun
        · split at hrun
          · simp only [Option.some.injEq] at hrun
            exact ⟨_, hrun.symm⟩
          · split at hrun
            · exact ih _ _ hrun
            · rename_i pageResult hpage hlt html hhtml
              split at hrun
              · rename_i hnone
                exact absurd hnone
                  (by simp [Option.isSome_iff_ne_none.mp
                    (filterLinks_isSome (fun l hm => hl html entry.url l hm))])
              · exact ih _ _ hrun

/-- A crawl environment in which the seed page succeeds and links to two
pages, and every other fetch throws (every discovered link 404s). -/
def linksFailEnv : CrawlEnv :=
  ⟨fun u =>
      if u = "https://example.com" then
        .ok ⟨"Seed", "hello world", some "<html>"⟩
      else .error (),
    fun _ _ =>
      [⟨"a", "https://example.com/a", true⟩,
        ⟨"b", "https://example.com/b", true⟩]⟩

/-- What crawling `linksFailEnv` returns: the seed page only, with a
structured summary. -/
def linksFailResult : CrawlResult :=
  ⟨[⟨"https://example.com", "Seed", "hello world", 0, 2, 3⟩],
    ⟨1, 3, 1, .no_more_links⟩⟩

set_option maxRecDepth 1000000 in
/-- **C5.** `crawl` never throws for partial failures: as long as every
extracted link URL parses (cheerio resolves every `href` through
`new URL`, so they do), the only hard failure a crawl can surface is the
caller-level one, a malformed starting URL — any `some x` outcome that is
an exception forces `normalizeUrl startUrl = none`.  In particular a
crawl whose every discovered link 404s returns a structured result whose
`pages` hold the seed page only. -/
theorem crawl_partial_failures_structured :
    (∀ startUrl opts env fuel x,
      (∀ html base, ∀ l ∈ env.extractLinks html base,
        (parseURL l.url).isSome = true) →
      crawl startUrl opts env fuel = some x →
      (∃ e, x = Except.error e) →
      normalizeUrl startUrl = none) ∧
    crawl "https://example.com" none linksFailEnv 4 =
      some (Except.ok linksFailResult) ∧
    linksFailResult.pages.map CrawlPageResult.url = ["https://example.com"] ∧
    linksFailEnv.extractPage "https://example.com/a" = Except.error () ∧
    linksFailEnv.extractPage "https://example.com/b" = Except.error () := by
  refine ⟨?_, by decide, by decide, by decide, by decide⟩
  intro startUrl opts env fuel x hl hrun hex
  obtain ⟨e, rfl⟩ := hex
  by_cases hnorm : normalizeUrl startUrl = none
  · exact hnorm
  · exfalso
    obtain ⟨ns, hns⟩ := Option.ne_none_iff_exists'.mp hnorm
    obtain ⟨r0, _, hps, _⟩ := normalizeUrl_main hns
    have hdom : extractDomain ns = some (normalizedRec r0).host := by
      simp [extractDomain, hps]
    unfold crawl at hrun
    simp only [hns, hdom] at hrun
    obtain ⟨r, hr⟩ := crawlGo_no_error env _ _ _ hl fuel _ _ hrun
    simp at hr
